import Mathlib

/-!
Verification of the `multidirmap` package (a multidirectional mapping with an
arbitrary number of key columns) against its natural-language specification.

We shallowly embed the Python sources:
  * `src/multidirmap/multidirmap.py`   — the `MultiDirMap` class
  * `src/multidirmap/_multidirmaprow.py` — `MultiDirMapRowBase` (row objects)
  * `src/multidirmap/_read_only_dict.py` — `ReadOnlyDict`
  * `src/multidirmap/_util.py`         — `DuplicateKeyError`

Modelling choices, mirroring CPython semantics:
  * Python `dict` (insertion ordered) is an association list; `d[k] = v`
    replaces the value in place when `k` is present and appends otherwise;
    `del d[k]` removes the entry and raises `KeyError` when absent;
    `popitem` removes the last entry.
  * Row objects are mutable and shared between the indices, so rows live in a
    heap (`rowStore`) addressed by allocation ids; index dictionaries map key
    values to row ids.  A row's slots hold one value per column, kept as an
    association list from column name to value (built by `dict(zip(columns, row))`).
  * Exceptions are explicit: every operation returns the state it leaves
    behind together with `Except PyErr`.  Python's `try/finally` in
    `MultiDirMap._writable` re-engages the read-only flag on every exit path,
    which the embedding reproduces.
  * The `ReadOnlyDict._read_only` flags of the key dictionaries are always
    toggled together (only `_writable` flips them), so the embedding keeps a
    single `readOnly` flag on the map state.
  * `generate_row_class` is imported by `multidirmap.py` but absent from
    `_multidirmaprow.py` as shipped.  Modelled from the spec: it only creates
    the concrete row class with one slot per column (the spec's "fixed-layout
    record type generated once per distinct column schema"); the row type
    therefore exposes exactly the attributes of `MultiDirMapRowBase`, namely
    the column slots and the methods `to_list` / `to_dict`.  The calls
    `row.aslist()` and `row.asdict()` made by `multidirmap.py` consequently
    raise `AttributeError`, which the embedding models explicitly.
-/

/-- Python values as used by the library: the absent-value marker `None`,
integers, strings, and booleans.  (The library treats key and field values
generically; this universe is enough for every claim.) -/
inductive PyVal where
  | pynone
  | int (n : Int)
  | str (s : String)
  | bool (b : Bool)
deriving DecidableEq, Repr

/-- Python exceptions raised by the library. -/
inductive PyErr where
  | duplicateKeyError
  | keyError
  | valueError
  | indexError
  /-- TypeError with a hint of its source (read-only dict, tuple + list concatenation). -/
  | typeError (msg : String)
  /-- AttributeError naming the missing attribute. -/
  | attributeError (attr : String)
deriving DecidableEq, Repr

deriving instance DecidableEq for Except

/-! ### Association lists with Python `dict` semantics -/

section AssocLib

variable {K : Type} {V : Type} [DecidableEq K]

/-- First-match lookup, i.e. `d[k]` / `d.get(k)` on a Python dict. -/
def aLookup : List (K × V) → K → Option V
  | [], _ => none
  | (k', v) :: d, k => if k' = k then some v else aLookup d k

/-- Membership test, i.e. `k in d`. -/
def aContains (d : List (K × V)) (k : K) : Bool :=
  (aLookup d k).isSome

/-- Python `d[k] = v`: replace in place when the key exists, else append. -/
def aSet : List (K × V) → K → V → List (K × V)
  | [], k, v => [(k, v)]
  | (k', v') :: d, k, v => if k' = k then (k', v) :: d else (k', v') :: aSet d k v

/-- Python `del d[k]`: remove the entry, `KeyError` when absent. -/
def aDel : List (K × V) → K → Except PyErr (List (K × V))
  | [], _ => .error .keyError
  | (k', v') :: d, k =>
    if k' = k then .ok d
    else match aDel d k with
      | .ok d' => .ok ((k', v') :: d')
      | .error e => .error e

/-- Keys of the dict, in insertion order. -/
def aKeys (d : List (K × V)) : List K := d.map Prod.fst

/-- Python dicts never hold a key twice; association lists reachable through
the embedded operations satisfy this well-formedness condition. -/
def NoDupKeys (d : List (K × V)) : Prop := (aKeys d).Nodup

instance (d : List (K × V)) : Decidable (NoDupKeys d) := by
  unfold NoDupKeys
  infer_instance

end AssocLib

/-! ### State of a `MultiDirMap` -/

/-- One key-column index: a Python dict from key value to a row-object id
(`ReadOnlyDict` contents; the read-only flag is kept on the map state). -/
abbrev PyDict := List (PyVal × Nat)

/-- The key dictionaries `_key_dicts`: column name to index, in the order the
key columns were declared. -/
abbrev DictMap := List (String × PyDict)

/-- Row-object heap: allocation id to the row's slot contents, an association
list from column name to value as built by `dict(zip(columns, row))` in
`MultiDirMap._add_entry` and stored by `MultiDirMapRowBase.__init__`. -/
abbrev RowStore := List (Nat × List (String × PyVal))

/-- State of a `MultiDirMap` instance (plus the row-object heap). -/
structure MDM where
  columns : List String
  keyColumns : Nat
  dicts : DictMap
  rowStore : RowStore
  nextId : Nat
  readOnly : Bool
deriving DecidableEq, Repr

/-- The primary key dict `_primary_key_dict`, i.e. `_key_dicts[columns[0]]`. -/
def primaryDict (m : MDM) : PyDict :=
  match m.columns.head? with
  | some c0 => (aLookup m.dicts c0).getD []
  | none => []

/-- Slot contents of the row object with id `rid`. -/
def rowFields (m : MDM) (rid : Nat) : Option (List (String × PyVal)) :=
  aLookup m.rowStore rid

/-- Python `getattr(row, col)` for a column slot. -/
def rowGetField (m : MDM) (rid : Nat) (col : String) : Option PyVal :=
  match rowFields m rid with
  | some fs => aLookup fs col
  | none => none

/-- `MultiDirMapRowBase.to_list`: the row's values in slot (column) order. -/
def rowToList (m : MDM) (rid : Nat) : List PyVal :=
  m.columns.map (fun c => (rowGetField m rid c).getD PyVal.pynone)

/-- `MultiDirMapRowBase.to_dict`: the row's values keyed by column name. -/
def rowToDict (m : MDM) (rid : Nat) : List (String × PyVal) :=
  m.columns.map (fun c => (c, (rowGetField m rid c).getD PyVal.pynone))

/-- Attribute names that resolve on a row object besides the column slots:
`MultiDirMapRowBase` defines `to_list` and `to_dict` (src
`_multidirmaprow.py`), and the generated subclass adds only slots. -/
def rowMethodNames : List String := ["to_list", "to_dict"]

/-- Resolution of the call `row.aslist()` made by `multidirmap.py`
(`__str__`, `_determine_deletable`): the name is not a slot and not a method
of the row class, so Python raises `AttributeError`. -/
def rowCallAslist (m : MDM) (rid : Nat) : Except PyErr (List PyVal) :=
  if "aslist" ∈ rowMethodNames then .ok (rowToList m rid)
  else .error (.attributeError "aslist")

/-- Resolution of the call `row.asdict()` made by `multidirmap.py`
(`__delitem__`, `popitem`): the name is not defined on the row class, so
Python raises `AttributeError`. -/
def rowCallAsdict (m : MDM) (rid : Nat) : Except PyErr (List (String × PyVal)) :=
  if "asdict" ∈ rowMethodNames then .ok (rowToDict m rid)
  else .error (.attributeError "asdict")

/-! ### Input data and `_format_data` -/

/-- One row of input data handed to `update`: a list, a tuple, a dict, or
anything else (which `_format_data` rejects). -/
inductive InputRow where
  | rlist (xs : List PyVal)
  | rtuple (xs : List PyVal)
  | rdict (entries : List (String × PyVal))
  | rother
deriving DecidableEq, Repr

/-- Top-level input data: a list/tuple of rows, a dict from primary key to
row remainder, or an unrecognized object. -/
inductive InputData where
  | dlist (rows : List InputRow)
  | ddict (entries : List (PyVal × InputRow))
  | dother
deriving DecidableEq, Repr

/-- Python truthiness of the `data` argument (`if data:` in `__init__`):
empty collections are falsy. -/
def dataTruthy : InputData → Bool
  | .dlist rows => !rows.isEmpty
  | .ddict es => !es.isEmpty
  | .dother => true

/-- One iteration of the list branch of `_format_data`.  A list row of
acceptable arity is right-padded with `None`; a tuple row of acceptable arity
reaches `row + [None] * (len(columns) - len(row))`, and CPython raises
`TypeError` when concatenating a tuple with a list (even an empty one); other
shapes raise `ValueError`. -/
def formatRow (cols : List String) (kc : Nat) : InputRow → Except PyErr (List PyVal)
  | .rlist xs =>
    if kc ≤ xs.length ∧ xs.length ≤ cols.length then
      .ok (xs ++ List.replicate (cols.length - xs.length) PyVal.pynone)
    else .error .valueError
  | .rtuple xs =>
    if kc ≤ xs.length ∧ xs.length ≤ cols.length then
      .error (.typeError "can only concatenate tuple to tuple")
    else .error .valueError
  | .rdict es =>
    if (cols.take kc).all (fun c => aContains es c) then
      let newRow := cols.map (fun c => (aLookup es c).getD PyVal.pynone)
      if (newRow.take kc).contains PyVal.pynone then .error .valueError
      else .ok newRow
    else .error .valueError
  | .rother => .error .valueError

/-- One iteration of the dict branch of `_format_data`: `[primary_key] + row`
padded with `None`.  For a tuple value the concatenation `[primary_key] + row`
is list + tuple, again a CPython `TypeError`; non-list non-tuple values raise
`ValueError`. -/
def formatDictRow (cols : List String) (kc : Nat) (pk : PyVal) :
    InputRow → Except PyErr (List PyVal)
  | .rlist xs =>
    if kc ≤ xs.length + 1 ∧ xs.length + 1 ≤ cols.length then
      .ok (pk :: xs ++ List.replicate (cols.length - xs.length - 1) PyVal.pynone)
    else .error .valueError
  | .rtuple xs =>
    if kc ≤ xs.length + 1 ∧ xs.length + 1 ≤ cols.length then
      .error (.typeError "can only concatenate list to list")
    else .error .valueError
  | _ => .error .valueError

/-- The list branch loop of `_format_data`. -/
def formatRows (cols : List String) (kc : Nat) : List InputRow → Except PyErr (List (List PyVal))
  | [] => .ok []
  | r :: rs =>
    match formatRow cols kc r with
    | .error e => .error e
    | .ok v =>
      match formatRows cols kc rs with
      | .error e => .error e
      | .ok vs => .ok (v :: vs)

/-- The dict branch loop of `_format_data`. -/
def formatDictRows (cols : List String) (kc : Nat) :
    List (PyVal × InputRow) → Except PyErr (List (List PyVal))
  | [] => .ok []
  | (pk, r) :: rs =>
    match formatDictRow cols kc pk r with
    | .error e => .error e
    | .ok v =>
      match formatDictRows cols kc rs with
      | .error e => .error e
      | .ok vs => .ok (v :: vs)

/-- `MultiDirMap._format_data`: normalize input into a list of full-length
rows, raising `ValueError` for malformed input. -/
def formatData (cols : List String) (kc : Nat) : InputData → Except PyErr (List (List PyVal))
  | .dlist rows => formatRows cols kc rows
  | .ddict es => formatDictRows cols kc es
  | .dother => .error .valueError

/-! ### `_add_entry`, rollback bookkeeping, and `update` -/

/-- Python `dict(zip(columns, row))`: builds a dict, later assignments to the
same key overwriting earlier ones in place. -/
def zipToDict (cols : List String) (vals : List PyVal) : List (String × PyVal) :=
  (List.zip cols vals).foldl (fun d p => aSet d p.1 p.2) []

/-- The accumulators threaded through one `update` call: `added_entries`,
`backups` and `to_delete` (a dict from key column to a set of keys, the set
modelled as a duplicate-free list). -/
structure UpdAcc where
  addedEntries : List (List (String × PyVal))
  backups : List (List (PyVal × (String × Nat)))
  toDelete : List (String × List PyVal)
deriving DecidableEq, Repr

/-- Initial accumulators of `update`: `to_delete = {col: set() for col in
columns[:key_columns]}`. -/
def initUpdAcc (cols : List String) (kc : Nat) : UpdAcc :=
  ⟨[], [], (cols.take kc).foldl (fun d c => aSet d c ([] : List PyVal)) []⟩

/-- The no-duplicates branch of `_add_entry`: for every entry whose column has
a key dict, file the new row under its key and record the addition. -/
def cleanAddLoop (dicts : DictMap) (rid : Nat) :
    List (String × PyVal) → List (String × PyVal) → DictMap × List (String × PyVal)
  | [], ae => (dicts, ae)
  | (c, k) :: rest, ae =>
    match aLookup dicts c with
    | none => cleanAddLoop dicts rid rest ae
    | some d => cleanAddLoop (aSet dicts c (aSet d k rid)) rid rest (aSet ae c k)

/-- Python set `.add`: append when absent. -/
def setAdd (s : List PyVal) (v : PyVal) : List PyVal :=
  if s.contains v then s else s ++ [v]

/-- Python set `.discard`: remove when present. -/
def setDiscard (s : List PyVal) (v : PyVal) : List PyVal :=
  s.filter (fun x => x ≠ v)

/-- The inner loop of `_determine_deletable`: `for i, val in
enumerate(...aslist()[:kc]): to_delete[columns[i]].add(val)`. -/
def addSliceLoop (cols : List String) :
    Nat → List PyVal → List (String × List PyVal) →
    List (String × List PyVal) × Option PyErr
  | _, [], td => (td, none)
  | i, v :: vs, td =>
    match cols.get? i with
    | none => (td, some .indexError)
    | some c =>
      match aLookup td c with
      | none => (td, some .keyError)
      | some s => addSliceLoop cols (i + 1) vs (aSet td c (setAdd s v))

/-- `MultiDirMap._determine_deletable`: for every colliding key column, mark
all key-column values of the row currently occupying the slot for deletion.
The occupant is read back with `.aslist()`, which raises `AttributeError`
(see `rowCallAslist`). -/
def determineDeletable (m : MDM) (dups : List (String × Bool)) :
    List (String × PyVal) → List (String × List PyVal) →
    List (String × List PyVal) × Option PyErr
  | [], td => (td, none)
  | (c, k) :: rest, td =>
    if aContains m.dicts c then
      match aLookup dups c with
      | none => (td, some .keyError)
      | some b =>
        if b then
          match aLookup m.dicts c with
          | none => (td, some .keyError)
          | some d =>
            match aLookup d k with
            | none => (td, some .keyError)
            | some rid =>
              match rowCallAslist m rid with
              | .error e => (td, some e)
              | .ok vals =>
                match addSliceLoop m.columns 0 (vals.take m.keyColumns) td with
                | (td', none) => determineDeletable m dups rest td'
                | (td', some e) => (td', some e)
        else determineDeletable m dups rest td
    else determineDeletable m dups rest td

/-- The `overwrite == "all"` branch of `_add_entry`: file the new row in every
key dict and cancel pending deletions of the exact keys just (re)claimed. -/
def overwriteAllLoop (rid : Nat) :
    List (String × PyVal) → DictMap → List (String × List PyVal) →
    DictMap × List (String × List PyVal) × Option PyErr
  | [], dicts, td => (dicts, td, none)
  | (c, k) :: rest, dicts, td =>
    match aLookup dicts c with
    | none => overwriteAllLoop rid rest dicts td
    | some d =>
      match aLookup td c with
      | none => (aSet dicts c (aSet d k rid), td, some .keyError)
      | some s =>
        overwriteAllLoop rid rest (aSet dicts c (aSet d k rid)) (aSet td c (setDiscard s k))

/-- The overwrite-with-backup branch of `_add_entry` (policies `primary` /
`secondary` when the collision is permitted): back up evicted entries, file
the new row, cancel pending deletions. -/
def overwriteBackupLoop (rid : Nat) (dups : List (String × Bool)) :
    List (String × PyVal) → DictMap → List (String × List PyVal) →
    List (String × PyVal) → List (PyVal × (String × Nat)) →
    DictMap × List (String × List PyVal) × List (String × PyVal) ×
      List (PyVal × (String × Nat)) × Option PyErr
  | [], dicts, td, ae, bk => (dicts, td, ae, bk, none)
  | (c, k) :: rest, dicts, td, ae, bk =>
    match aLookup dicts c with
    | none => overwriteBackupLoop rid dups rest dicts td ae bk
    | some d =>
      match aLookup dups c with
      | none => (dicts, td, ae, bk, some .keyError)
      | some b =>
        let step :=
          if b then
            match aLookup d k with
            | none => none
            | some old => some (ae, aSet bk k (c, old))
          else some (aSet ae c k, bk)
        match step with
        | none => (dicts, td, ae, bk, some .keyError)
        | some (ae', bk') =>
          match aLookup td c with
          | none => (aSet dicts c (aSet d k rid), td, ae', bk', some .keyError)
          | some s =>
            overwriteBackupLoop rid dups rest (aSet dicts c (aSet d k rid))
              (aSet td c (setDiscard s k)) ae' bk'

/-- The not-insertable test of `_add_entry` (lines 270-275): `overwrite ==
"none"`, or `"primary"` with a non-primary collision, or `"secondary"` with a
primary collision, with Python's left-to-right short-circuit evaluation
(`columns[0]` and `duplicates[columns[0]]` can raise). -/
def notInsertable (cols : List String) (dups : List (String × Bool)) (ow : String) :
    Except PyErr Bool :=
  if ow = "none" then .ok true
  else if ow = "primary" then
    match cols.head? with
    | none => .error .indexError
    | some c0 => .ok ((dups.filter (fun p => p.1 ≠ c0)).any (fun p => p.2))
  else if ow = "secondary" then
    match cols.head? with
    | none => .error .indexError
    | some c0 =>
      match aLookup dups c0 with
      | none => .error .keyError
      | some b => .ok b
  else .ok false

/-- Inner loop of `_rollback`: delete the keys recorded in one
`added_entry`. -/
def delAddedLoop : DictMap → List (String × PyVal) → DictMap × Option PyErr
  | dicts, [] => (dicts, none)
  | dicts, (c, k) :: rest =>
    match aLookup dicts c with
    | none => (dicts, some .keyError)
    | some d =>
      match aDel d k with
      | .error e => (dicts, some e)
      | .ok d' => delAddedLoop (aSet dicts c d') rest

/-- First phase of `_rollback`: remove every entry added during the current
`update` call, oldest first. -/
def rollbackDelLoop : DictMap → List (List (String × PyVal)) → DictMap × Option PyErr
  | dicts, [] => (dicts, none)
  | dicts, ae :: aes =>
    match delAddedLoop dicts ae with
    | (d', none) => rollbackDelLoop d' aes
    | (d', some e) => (d', some e)

/-- Inner loop of the second phase of `_rollback`: restore one backup. -/
def restoreLoop : DictMap → List (PyVal × (String × Nat)) → DictMap × Option PyErr
  | dicts, [] => (dicts, none)
  | dicts, (k, (c, rid)) :: rest =>
    match aLookup dicts c with
    | none => (dicts, some .keyError)
    | some d => restoreLoop (aSet dicts c (aSet d k rid)) rest

/-- Second phase of `_rollback`: restore all backed-up evicted entries. -/
def restoreAllLoop : DictMap → List (List (PyVal × (String × Nat))) → DictMap × Option PyErr
  | dicts, [] => (dicts, none)
  | dicts, bk :: bks =>
    match restoreLoop dicts bk with
    | (d', none) => restoreAllLoop d' bks
    | (d', some e) => (d', some e)

/-- `MultiDirMap._rollback`: undo the additions of the batch so far, then
restore the backed-up evicted entries. -/
def rollbackRun (dicts : DictMap) (aes : List (List (String × PyVal)))
    (bks : List (List (PyVal × (String × Nat)))) : DictMap × Option PyErr :=
  match rollbackDelLoop dicts aes with
  | (d', none) => restoreAllLoop d' bks
  | (d', some e) => (d', some e)

/-- The `duplicates` dict of `_add_entry`: for each entry whose column has a
key dict, whether its key already exists there. -/
def dupsOf (D : DictMap) (es : List (String × PyVal)) : List (String × Bool) :=
  es.filterMap (fun p =>
    match aLookup D p.1 with
    | some d => some (p.1, aContains d p.2)
    | none => none)

/-- `MultiDirMap._add_entry`: classify the row against the current indices and
either insert it cleanly, skip it, roll back and raise `DuplicateKeyError`, or
take an overwrite branch.  The row object is allocated first in every case. -/
def addEntry (m : MDM) (row : List PyVal) (acc : UpdAcc) (ow : String) (skip : Bool) :
    MDM × UpdAcc × Option PyErr :=
  let entries := zipToDict m.columns row
  let rid := m.nextId
  let m1 : MDM := {m with rowStore := m.rowStore ++ [(rid, entries)], nextId := rid + 1}
  let dups := dupsOf m1.dicts entries
  if dups.any (fun p => p.2) = false then
    let r := cleanAddLoop m1.dicts rid entries []
    ({m1 with dicts := r.1}, {acc with addedEntries := acc.addedEntries ++ [r.2]}, none)
  else
    match notInsertable m1.columns dups ow with
    | .error e => (m1, acc, some e)
    | .ok true =>
      if skip then (m1, acc, none)
      else
        match rollbackRun m1.dicts acc.addedEntries acc.backups with
        | (d', none) => ({m1 with dicts := d'}, acc, some .duplicateKeyError)
        | (d', some e) => ({m1 with dicts := d'}, acc, some e)
    | .ok false =>
      match determineDeletable m1 dups entries acc.toDelete with
      | (td', some e) => (m1, {acc with toDelete := td'}, some e)
      | (td', none) =>
        if ow = "all" then
          match overwriteAllLoop rid entries m1.dicts td' with
          | (dicts', td'', err) =>
            ({m1 with dicts := dicts'}, {acc with toDelete := td''}, err)
        else
          match overwriteBackupLoop rid dups entries m1.dicts td' [] [] with
          | (dicts', td'', ae, bk, none) =>
            ({m1 with dicts := dicts'},
             {acc with toDelete := td'',
                       addedEntries := acc.addedEntries ++ [ae],
                       backups := acc.backups ++ [bk]}, none)
          | (dicts', td'', _, _, some e) =>
            ({m1 with dicts := dicts'}, {acc with toDelete := td''}, some e)

/-- The row loop of `update`. -/
def updateLoop (ow : String) (skip : Bool) :
    MDM → List (List PyVal) → UpdAcc → MDM × UpdAcc × Option PyErr
  | m, [], acc => (m, acc, none)
  | m, r :: rs, acc =>
    match addEntry m r acc ow skip with
    | (m', acc', none) => updateLoop ow skip m' rs acc'
    | (m', acc', some e) => (m', acc', some e)

/-- Per-column part of the deferred deletion loop at the end of `update`. -/
def delKeysLoop : DictMap → String → List PyVal → DictMap × Option PyErr
  | dicts, _, [] => (dicts, none)
  | dicts, c, k :: ks =>
    match aLookup dicts c with
    | none => (dicts, some .keyError)
    | some d =>
      match aDel d k with
      | .error e => (dicts, some e)
      | .ok d' => delKeysLoop (aSet dicts c d') c ks

/-- The deferred deletion loop at the end of `update`: `for col, keys in
to_delete.items(): for key in keys: del self._key_dicts[col][key]`. -/
def deleteLoop : DictMap → List (String × List PyVal) → DictMap × Option PyErr
  | dicts, [] => (dicts, none)
  | dicts, (c, ks) :: rest =>
    match delKeysLoop dicts c ks with
    | (d', none) => deleteLoop d' rest
    | (d', some e) => (d', some e)

/-- `MultiDirMap.update`: normalize the data (before any index is touched),
then, with the key dicts unlocked, add each row and finally perform the
deferred deletions.  The `finally` of `_writable` re-locks the dicts on every
exit path. -/
def updateM (m : MDM) (data : InputData) (ow : String) (skip : Bool) :
    MDM × Except PyErr Unit :=
  match formatData m.columns m.keyColumns data with
  | .error e => (m, .error e)
  | .ok rows =>
    let m1 : MDM := {m with readOnly := false}
    match updateLoop ow skip m1 rows (initUpdAcc m.columns m.keyColumns) with
    | (m2, acc, none) =>
      match deleteLoop m2.dicts acc.toDelete with
      | (d', none) => ({m2 with dicts := d', readOnly := true}, .ok ())
      | (d', some e) => ({m2 with dicts := d', readOnly := true}, .error e)
    | (m2, _, some e) => ({m2 with readOnly := true}, .error e)

/-! ### The remaining public operations -/

/-- `MultiDirMap.__init__`: build the per-key-column `ReadOnlyDict`s from
`columns[:key_columns]` (the raw argument; `self._key_columns` becomes
`key_columns or len(columns)`), bind the primary key dict, then feed `data`
through `update` when it is truthy. -/
def constructM (columns : List String) (keyColumns : Option Nat) (data : Option InputData) :
    Except PyErr MDM :=
  let kcEff := match keyColumns with
    | none => columns.length
    | some k => if k = 0 then columns.length else k
  let dictCols := match keyColumns with
    | none => columns
    | some k => columns.take k
  let dicts : DictMap := dictCols.foldl (fun d c => aSet d c ([] : PyDict)) []
  match columns.head? with
  | none => .error .indexError
  | some c0 =>
    if aContains dicts c0 then
      let base : MDM := ⟨columns, kcEff, dicts, [], 0, true⟩
      match data with
      | none => .ok base
      | some d =>
        if dataTruthy d then
          match updateM base d "primary" false with
          | (m, .ok _) => .ok m
          | (_, .error e) => .error e
        else .ok base
    else .error .keyError

/-- `MultiDirMap.__getitem__`: primary-index lookup, returning the row object
(its id) or raising `KeyError`. -/
def getitemM (m : MDM) (k : PyVal) : Except PyErr Nat :=
  match aLookup (primaryDict m) k with
  | some rid => .ok rid
  | none => .error .keyError

/-- `MultiDirMap.__setitem__`: `self.update({key: value})`. -/
def setitemM (m : MDM) (k : PyVal) (v : InputRow) : MDM × Except PyErr Unit :=
  updateM m (.ddict [(k, v)]) "primary" false

/-- The cleanup loop of `__delitem__`: `for col, key in item.asdict().items():
if col in self._key_dicts: del self._key_dicts[col][key]`. -/
def delitemCleanupLoop : DictMap → List (String × PyVal) → DictMap × Option PyErr
  | dicts, [] => (dicts, none)
  | dicts, (c, k) :: rest =>
    match aLookup dicts c with
    | none => delitemCleanupLoop dicts rest
    | some d =>
      match aDel d k with
      | .error e => (dicts, some e)
      | .ok d' => delitemCleanupLoop (aSet dicts c d') rest

/-- `MultiDirMap.__delitem__`: inside `_writable`, look up the row via the
primary dict (`if not item` means `item is None`: row objects are always
truthy), then delete its key from every key dict via `item.asdict()` — whose
resolution raises `AttributeError` (see `rowCallAsdict`). -/
def delitemM (m : MDM) (k : PyVal) : MDM × Except PyErr Unit :=
  let m1 : MDM := {m with readOnly := false}
  match aLookup (primaryDict m1) k with
  | none => ({m1 with readOnly := true}, .error .keyError)
  | some rid =>
    match rowCallAsdict m1 rid with
    | .error e => ({m1 with readOnly := true}, .error e)
    | .ok entries =>
      match delitemCleanupLoop m1.dicts entries with
      | (d', none) => ({m1 with dicts := d', readOnly := true}, .ok ())
      | (d', some e) => ({m1 with dicts := d', readOnly := true}, .error e)

/-- `MultiDirMap.pop`: look up first (no unlocking); absent keys return the
default or raise `KeyError`; present keys delegate to `__delitem__` and
return the row. -/
def popM (m : MDM) (k : PyVal) (dflt : Option PyVal) : MDM × Except PyErr (Option Nat) :=
  match aLookup (primaryDict m) k with
  | none =>
    match dflt with
    | none => (m, .error .keyError)
    | some _ => (m, .ok none)
  | some rid =>
    match delitemM m k with
    | (m', .ok _) => (m', .ok (some rid))
    | (m', .error e) => (m', .error e)

/-- The cleanup loop of `popitem`: like `__delitem__`'s but skipping the
primary column. -/
def popitemCleanupLoop (c0 : String) : DictMap → List (String × PyVal) → DictMap × Option PyErr
  | dicts, [] => (dicts, none)
  | dicts, (c, k) :: rest =>
    if c = c0 then popitemCleanupLoop c0 dicts rest
    else
      match aLookup dicts c with
      | none => popitemCleanupLoop c0 dicts rest
      | some d =>
        match aDel d k with
        | .error e => (dicts, some e)
        | .ok d' => popitemCleanupLoop c0 (aSet dicts c d') rest

/-- `MultiDirMap.popitem`: raise `KeyError` on an empty map (before
unlocking); otherwise remove the last primary entry, then clean up the
secondary dicts via `item[1].asdict()` — whose resolution raises
`AttributeError`, after the primary entry is already gone. -/
def popitemM (m : MDM) : MDM × Except PyErr (PyVal × Nat) :=
  if (primaryDict m).length = 0 then (m, .error .keyError)
  else
    let m1 : MDM := {m with readOnly := false}
    match m.columns.head?, (primaryDict m).getLast? with
    | some c0, some item =>
      let m2 : MDM := {m1 with dicts := aSet m1.dicts c0 (primaryDict m).dropLast}
      match rowCallAsdict m2 item.2 with
      | .error e => ({m2 with readOnly := true}, .error e)
      | .ok entries =>
        match popitemCleanupLoop c0 m2.dicts entries with
        | (d', none) => ({m2 with dicts := d', readOnly := true}, .ok item)
        | (d', some e) => ({m2 with dicts := d', readOnly := true}, .error e)
    | _, _ => ({m1 with readOnly := true}, .error .keyError)

/-- `MultiDirMap.clear`: inside `_writable`, clear every key dict. -/
def clearM (m : MDM) : MDM × Except PyErr Unit :=
  ({m with dicts := m.dicts.map (fun p => (p.1, ([] : PyDict))), readOnly := true}, .ok ())

/-- `MultiDirMap._modify_row_attr`: a no-op when the value is unchanged or
the column is not a key column; `DuplicateKeyError` (before unlocking) when
the new value is already a key; otherwise, inside `_writable`, file the row
under the new key and delete the old key — if the old key is absent the
deletion raises `KeyError`, after the new key was already inserted. -/
def modifyRowAttr (m : MDM) (rid : Nat) (col : String) (v old : PyVal) :
    MDM × Except PyErr Unit :=
  match rowGetField m rid col with
  | none => (m, .error (.attributeError col))
  | some cur =>
    if v = cur ∨ aContains m.dicts col = false then (m, .ok ())
    else
      match aLookup m.dicts col with
      | none => (m, .ok ())
      | some d =>
        if aContains d v then (m, .error .duplicateKeyError)
        else
          let d1 := aSet d v rid
          match aDel d1 old with
          | .ok d2 => ({m with dicts := aSet m.dicts col d2, readOnly := true}, .ok ())
          | .error e => ({m with dicts := aSet m.dicts col d1, readOnly := true}, .error e)

/-- Overwrite one slot value in the row heap (the object with id `rid`). -/
def rStoreSetField : RowStore → Nat → String → PyVal → RowStore
  | [], _, _, _ => []
  | p :: s, rid, col, v =>
    if p.1 = rid then (p.1, aSet p.2 col v) :: s else p :: rStoreSetField s rid col v

/-- `MultiDirMapRowBase.__setattr__` on a column slot: evaluate
`getattr(self, attr)`, call `_modify_row_attr`, and only on success commit
the slot value. -/
def setRowField (m : MDM) (rid : Nat) (col : String) (v : PyVal) :
    MDM × Except PyErr Unit :=
  match rowGetField m rid col with
  | none => (m, .error (.attributeError col))
  | some old =>
    match modifyRowAttr m rid col v old with
    | (m1, .ok _) => ({m1 with rowStore := rStoreSetField m1.rowStore rid col v}, .ok ())
    | (m1, .error e) => (m1, .error e)

/-! ### Direct mutation of an exposed `ReadOnlyDict` reference -/

/-- The message of the `TypeError` raised by `if_not_read_only`. -/
def roMsg : String := "This dictionary is read only!"

/-- `ReadOnlyDict.__setitem__` called directly on an exposed index. -/
def roSetitem (m : MDM) (col : String) (k : PyVal) (rid : Nat) : MDM × Except PyErr Unit :=
  if m.readOnly then (m, .error (.typeError roMsg))
  else
    match aLookup m.dicts col with
    | none => (m, .error (.attributeError col))
    | some d => ({m with dicts := aSet m.dicts col (aSet d k rid)}, .ok ())

/-- `ReadOnlyDict.__delitem__` called directly on an exposed index. -/
def roDelitem (m : MDM) (col : String) (k : PyVal) : MDM × Except PyErr Unit :=
  if m.readOnly then (m, .error (.typeError roMsg))
  else
    match aLookup m.dicts col with
    | none => (m, .error (.attributeError col))
    | some d =>
      match aDel d k with
      | .ok d' => ({m with dicts := aSet m.dicts col d'}, .ok ())
      | .error e => (m, .error e)

/-- `ReadOnlyDict.clear` called directly on an exposed index. -/
def roClear (m : MDM) (col : String) : MDM × Except PyErr Unit :=
  if m.readOnly then (m, .error (.typeError roMsg))
  else
    match aLookup m.dicts col with
    | none => (m, .error (.attributeError col))
    | some _ => ({m with dicts := aSet m.dicts col ([] : PyDict)}, .ok ())

/-- `ReadOnlyDict.pop` called directly on an exposed index. -/
def roPop (m : MDM) (col : String) (k : PyVal) : MDM × Except PyErr (Option Nat) :=
  if m.readOnly then (m, .error (.typeError roMsg))
  else
    match aLookup m.dicts col with
    | none => (m, .error (.attributeError col))
    | some d =>
      match aLookup d k, aDel d k with
      | some rid, .ok d' => ({m with dicts := aSet m.dicts col d'}, .ok (some rid))
      | _, _ => (m, .error .keyError)

/-- `ReadOnlyDict.popitem` called directly on an exposed index. -/
def roPopitem (m : MDM) (col : String) : MDM × Except PyErr (Option (PyVal × Nat)) :=
  if m.readOnly then (m, .error (.typeError roMsg))
  else
    match aLookup m.dicts col with
    | none => (m, .error (.attributeError col))
    | some d =>
      match d.getLast? with
      | some item => ({m with dicts := aSet m.dicts col d.dropLast}, .ok (some item))
      | none => (m, .error .keyError)

/-- `ReadOnlyDict.update` (merge) called directly on an exposed index. -/
def roMerge (m : MDM) (col : String) (kvs : List (PyVal × Nat)) : MDM × Except PyErr Unit :=
  if m.readOnly then (m, .error (.typeError roMsg))
  else
    match aLookup m.dicts col with
    | none => (m, .error (.attributeError col))
    | some d =>
      ({m with dicts := aSet m.dicts col (kvs.foldl (fun d' p => aSet d' p.1 p.2) d)}, .ok ())

/-! ### Equality and observable views -/

/-- Python `dict.__eq__` on the primary key dicts, with row values compared
by `MultiDirMapRowBase.__eq__` (equality of `to_list`): order-insensitive. -/
def pyDictRowEq (m1 m2 : MDM) : Bool :=
  (primaryDict m1).length == (primaryDict m2).length &&
  (primaryDict m1).all (fun p =>
    match aLookup (primaryDict m2) p.1 with
    | some rid2 => rowToList m1 p.2 == rowToList m2 rid2
    | none => false)

/-- `MultiDirMap.__eq__` between two maps: same columns, same `_key_columns`,
and equal primary key dicts (via `ReadOnlyDict.__eq__`, which delegates to
order-insensitive `dict.__eq__`). -/
def tableEq (m1 m2 : MDM) : Bool :=
  m1.columns == m2.columns && m1.keyColumns == m2.keyColumns && pyDictRowEq m1 m2

/-- The central consistency invariant: every entry `(k, row)` of every key
dict satisfies `getattr(row, col) == k`. -/
def rowKeyInvariant (m : MDM) : Bool :=
  m.dicts.all (fun cd => cd.2.all (fun p => rowGetField m p.2 cd.1 == some p.1))

/-- All key dicts have the same number of entries as the primary dict. -/
def indexCardsEqual (m : MDM) : Bool :=
  m.dicts.all (fun cd => cd.2.length == (primaryDict m).length)

/-- Collect every row of the map as its ordered value list (`to_list`), in
primary-index iteration order, re-wrapped as input data. -/
def relistData (m : MDM) : InputData :=
  .dlist ((primaryDict m).map (fun p => .rlist (rowToList m p.2)))

/-! ### Ghost bookkeeping used by the rollback and round-trip proofs -/

/-- Apply one recorded addition `(col, key, rid)` to the key dicts (the clean
branch of `_add_entry` only files entries whose column has a key dict). -/
def addOne (D : DictMap) (c : String) (k : PyVal) (rid : Nat) : DictMap :=
  match aLookup D c with
  | some d => aSet D c (aSet d k rid)
  | none => D

/-- Apply a list of recorded additions in order. -/
def applyAdds (D : DictMap) : List (String × PyVal × Nat) → DictMap
  | [] => D
  | p :: L => applyAdds (addOne D p.1 p.2.1 p.2.2) L

/-- The additions a recorded list makes to the dict of column `c`. -/
def addsFor (L : List (String × PyVal × Nat)) (c : String) : List (PyVal × Nat) :=
  L.filterMap (fun p => if p.1 = c then some (p.2.1, p.2.2) else none)

/-- The additions the clean branch of `_add_entry` performs for one row: one
per entry whose column has a key dict. -/
def rowAdds (D : DictMap) (rid : Nat) (es : List (String × PyVal)) :
    List (String × PyVal × Nat) :=
  es.filterMap (fun p => if aContains D p.1 then some (p.1, p.2, rid) else none)

/-- The `(col, key)` projection of recorded additions (the shape of an
`added_entry` dict). -/
def addPairs (L : List (String × PyVal × Nat)) : List (String × PyVal) :=
  L.map (fun p => (p.1, p.2.1))

/-- Invariant maintained along the row loop of a skip-free `update` while
every processed row took the clean branch: the schema fields are untouched,
no backups exist, the row heap only grew, and the dicts are the initial dicts
extended by a list of fresh, pairwise distinct additions whose `(col, key)`
projection is exactly the flattening of `added_entries`. -/
def UpdInv (m0 m : MDM) (acc : UpdAcc) : Prop :=
  m.columns = m0.columns ∧ m.keyColumns = m0.keyColumns ∧ m.readOnly = m0.readOnly ∧
  acc.backups = [] ∧
  (∃ ext, m.rowStore = m0.rowStore ++ ext) ∧
  ∃ L : List (String × PyVal × Nat),
    m.dicts = applyAdds m0.dicts L ∧
    (∀ p ∈ L, ∃ d, aLookup m0.dicts p.1 = some d ∧ aContains d p.2.1 = false) ∧
    (addPairs L).Nodup ∧
    acc.addedEntries.flatten = addPairs L

/-- The map state after one clean-branch `_add_entry`: the freshly allocated
row object is appended to the heap and filed in every key dict. -/
def cleanNext (m : MDM) (r : List PyVal) : MDM :=
  {m with rowStore := m.rowStore ++ [(m.nextId, zipToDict m.columns r)],
          nextId := m.nextId + 1,
          dicts := applyAdds m.dicts (rowAdds m.dicts m.nextId (zipToDict m.columns r))}

/-- Heap sanity: every allocated row id is below the allocation counter, and
the primary index only references allocated-range ids. -/
def StoreInv (m : MDM) : Prop :=
  (∀ q ∈ m.rowStore, q.1 < m.nextId) ∧ (∀ p ∈ primaryDict m, p.2 < m.nextId)

/-- Row contents of the primary dict, dereferenced through the row heap. -/
def valuesOf (m : MDM) : List (List PyVal) :=
  (primaryDict m).map (fun p => rowToList m p.2)

/-- Ghost: the per-key-column empty dicts built at the top of `__init__`. -/
def initDicts (dictCols : List String) : DictMap :=
  dictCols.foldl (fun d c => aSet d c ([] : PyDict)) []

/-- Ghost: the empty table state `__init__` assembles before loading `data`. -/
def baseState (cols : List String) (kcEff : Nat) (D : DictMap) : MDM :=
  ⟨cols, kcEff, D, [], 0, true⟩

/-- Ghost: the tail of `__init__` once the key dicts exist and the primary
dict is bound: feed `data` through `update` when truthy. -/
def constructTail (cols : List String) (kcEff : Nat) (D : DictMap)
    (data : Option InputData) : Except PyErr MDM :=
  match data with
  | none => .ok (baseState cols kcEff D)
  | some d =>
    if dataTruthy d then
      match updateM (baseState cols kcEff D) d "primary" false with
      | (m, .ok _) => .ok m
      | (_, .error e) => .error e
    else .ok (baseState cols kcEff D)

/-! ### Concrete states used by the counterexample evaluations and witnesses -/

/-- A two-key-column table holding the single row `["x", "y"]`; the result of
`MultiDirMap(["a", "b"], key_columns=2, data=[["x", "y"]])`. -/
def mXY : MDM :=
  ⟨["a", "b"], 2, [("a", [(.str "x", 0)]), ("b", [(.str "y", 0)])],
   [(0, [("a", .str "x"), ("b", .str "y")])], 1, true⟩

/-- A one-column table holding the single row `["x"]`; the result of
`MultiDirMap(["a"], key_columns=1, data=[["x"]])`. -/
def mX1 : MDM :=
  ⟨["a"], 1, [("a", [(.str "x", 0)])], [(0, [("a", .str "x")])], 1, true⟩

/-- `mX1` after `clear()` (the caller still holds the row handle `0`). -/
def mX1c : MDM := (clearM mX1).1

/-- `mX1c` after attempting `row.a = "z"` through the stale row handle. -/
def mX1s : MDM := (setRowField mX1c 0 "a" (.str "z")).1

/-- A two-key-column table with rows `["x","u"]`, `["y","v"]` inserted in that
order. -/
def mP1 : MDM :=
  ⟨["a", "b"], 2,
   [("a", [(.str "x", 0), (.str "y", 1)]), ("b", [(.str "u", 0), (.str "v", 1)])],
   [(0, [("a", .str "x"), ("b", .str "u")]), (1, [("a", .str "y"), ("b", .str "v")])],
   2, true⟩

/-- The same logical table as `mP1` with the rows inserted in the opposite
order, and with its secondary index `b` deliberately emptied: equality only
reads the primary index, so it cannot tell the difference. -/
def mP2 : MDM :=
  ⟨["a", "b"], 2,
   [("a", [(.str "y", 0), (.str "x", 1)]), ("b", [])],
   [(0, [("a", .str "y"), ("b", .str "v")]), (1, [("a", .str "x"), ("b", .str "u")])],
   2, true⟩

/-! ### Lemma library: Python dict association lists -/

section AssocLemmas

variable {K : Type} {V : Type} [DecidableEq K]

@[simp] theorem aLookup_nil (k : K) : aLookup ([] : List (K × V)) k = none := rfl

@[simp] theorem aLookup_cons (k' k : K) (v : V) (d : List (K × V)) :
    aLookup ((k', v) :: d) k = if k' = k then some v else aLookup d k := rfl

@[simp] theorem aSet_nil (k : K) (v : V) : aSet ([] : List (K × V)) k v = [(k, v)] := rfl

@[simp] theorem aSet_cons (k' k : K) (v' v : V) (d : List (K × V)) :
    aSet ((k', v') :: d) k v = if k' = k then (k', v) :: d else (k', v') :: aSet d k v := rfl

theorem aContains_iff (d : List (K × V)) (k : K) :
    aContains d k = true ↔ (aLookup d k).isSome := by
  simp [aContains]

/-- Setting an absent key appends the pair at the end. -/
theorem aSet_of_not_contains (d : List (K × V)) (k : K) (v : V)
    (h : aContains d k = false) : aSet d k v = d ++ [(k, v)] := by
  induction d with
  | nil => rfl
  | cons p d ih =>
    obtain ⟨k', v'⟩ := p
    simp only [aContains, aLookup_cons] at h
    by_cases hk : k' = k
    · simp [hk] at h
    · simp only [aSet_cons, if_neg hk, List.cons_append]
      rw [ih]
      simp only [aContains]
      simpa [hk] using h

/-- Setting a key preserves the key list (when the key is present). -/
theorem aKeys_aSet_of_contains (d : List (K × V)) (k : K) (v : V)
    (h : aContains d k = true) : aKeys (aSet d k v) = aKeys d := by
  induction d with
  | nil => simp [aContains] at h
  | cons p d ih =>
    obtain ⟨k', v'⟩ := p
    by_cases hk : k' = k
    · simp [aSet, hk, aKeys]
    · simp only [aContains, aLookup_cons, if_neg hk] at h
      simp [aSet, hk, aKeys] at ih ⊢
      exact ih h

/-- Lookup after setting the same key. -/
theorem aLookup_aSet (d : List (K × V)) (k : K) (v : V) :
    aLookup (aSet d k v) k = some v := by
  induction d with
  | nil => simp [aLookup]
  | cons p d ih =>
    obtain ⟨k', v'⟩ := p
    by_cases hk : k' = k
    · simp [aSet, hk, aLookup]
    · simp [aSet, hk, aLookup, ih]

/-- Lookup after setting a different key. -/
theorem aLookup_aSet_ne (d : List (K × V)) (k k' : K) (v : V) (h : k ≠ k') :
    aLookup (aSet d k v) k' = aLookup d k' := by
  induction d with
  | nil => simp [aLookup, h]
  | cons p d ih =>
    obtain ⟨k'', v''⟩ := p
    by_cases hk : k'' = k
    · subst hk
      simp [aSet, aLookup, h]
    · simp [aSet, hk, aLookup, ih]

/-- Setting a key to the value it already has is the identity. -/
theorem aSet_self (d : List (K × V)) (k : K) (v : V)
    (h : aLookup d k = some v) : aSet d k v = d := by
  induction d with
  | nil => simp [aLookup] at h
  | cons p d ih =>
    obtain ⟨k', v'⟩ := p
    by_cases hk : k' = k
    · simp only [aLookup_cons, if_pos hk] at h
      cases h
      simp [aSet, hk]
    · simp only [aLookup_cons, if_neg hk] at h
      simp [aSet, hk, ih h]

theorem aContains_iff_mem (d : List (K × V)) (k : K) :
    aContains d k = true ↔ k ∈ aKeys d := by
  induction d with
  | nil => simp [aContains, aKeys]
  | cons p d ih =>
    obtain ⟨k', v'⟩ := p
    rw [aKeys, List.map_cons, List.mem_cons]
    by_cases hk : k' = k
    · subst hk
      simp [aContains]
    · rw [aContains, aLookup_cons, if_neg hk]
      rw [aContains, aKeys] at ih
      constructor
      · intro h
        exact Or.inr (ih.mp h)
      · intro h
        rcases h with h | h
        · exact absurd h.symm hk
        · exact ih.mpr h

theorem aContains_false_iff (d : List (K × V)) (k : K) :
    aContains d k = false ↔ k ∉ aKeys d := by
  rw [← aContains_iff_mem]
  simp

theorem NoDupKeys_aSet (d : List (K × V)) (k : K) (v : V) (h : NoDupKeys d) :
    NoDupKeys (aSet d k v) := by
  by_cases hc : aContains d k = true
  · rw [NoDupKeys, aKeys_aSet_of_contains d k v hc]
    exact h
  · rw [NoDupKeys, aSet_of_not_contains d k v (by simpa using hc), aKeys, List.map_append]
    simp only [List.map_cons, List.map_nil]
    rw [List.nodup_append]
    refine ⟨h, List.nodup_singleton k, ?_⟩
    intro a ha hb
    simp only [List.mem_singleton] at hb
    subst hb
    exact ((aContains_false_iff d a).mp (by simpa using hc)) ha

theorem aContains_append (d1 d2 : List (K × V)) (k : K) :
    aContains (d1 ++ d2) k = (aContains d1 k || aContains d2 k) := by
  induction d1 with
  | nil => simp [aContains]
  | cons p d ih =>
    obtain ⟨k', v'⟩ := p
    by_cases hk : k' = k
    · simp [aContains, hk]
    · simp only [List.cons_append, aContains, aLookup_cons, if_neg hk] at ih ⊢
      exact ih

theorem aDel_middle (d rest : List (K × V)) (k : K) (v : V)
    (h : aContains d k = false) : aDel (d ++ (k, v) :: rest) k = .ok (d ++ rest) := by
  induction d with
  | nil => simp [aDel]
  | cons p d ih =>
    obtain ⟨k', v'⟩ := p
    simp only [aContains, aLookup_cons] at h
    by_cases hk : k' = k
    · simp [hk] at h
    · have h' : aContains d k = false := by simpa [aContains, hk] using h
      simp only [List.cons_append, aDel, if_neg hk, List.append_eq, ih h']

theorem aLookup_none_of_not_mem (d : List (K × V)) (k : K) (h : k ∉ aKeys d) :
    aLookup d k = none := by
  have := (aContains_false_iff d k).mpr h
  rw [aContains] at this
  cases hl : aLookup d k with
  | none => rfl
  | some v => rw [hl] at this; simp at this

theorem aExt (d1 d2 : List (K × V)) (hk : aKeys d1 = aKeys d2) (hnd : NoDupKeys d1)
    (h : ∀ k, aLookup d1 k = aLookup d2 k) : d1 = d2 := by
  induction d1 generalizing d2 with
  | nil =>
    cases d2 with
    | nil => rfl
    | cons q d2 => simp [aKeys] at hk
  | cons p d1 ih =>
    cases d2 with
    | nil => simp [aKeys] at hk
    | cons q d2 =>
      obtain ⟨k1, v1⟩ := p
      obtain ⟨k2, v2⟩ := q
      have hk12 : k1 = k2 := by
        have := congrArg List.head? hk
        simpa [aKeys] using this
      subst hk12
      have hkt : aKeys d1 = aKeys d2 := by
        have := congrArg List.tail hk
        simpa [aKeys] using this
      rw [NoDupKeys, aKeys, List.map_cons, List.nodup_cons] at hnd
      have hv : v1 = v2 := by
        have := h k1
        simpa [aLookup] using this
      subst hv
      have hnd1 : NoDupKeys d1 := hnd.2
      have ht : d1 = d2 := by
        refine ih d2 hkt hnd1 ?_
        intro k
        by_cases hk1 : k = k1
        · subst hk1
          rw [aLookup_none_of_not_mem d1 k hnd.1, aLookup_none_of_not_mem d2 k]
          rw [← hkt]
          exact hnd.1
        · have hne : ¬k1 = k := fun e => hk1 e.symm
          have := h k
          simpa [aLookup, hne] using this
      rw [ht]

end AssocLemmas

/-! ### Claim theorems: concrete evaluations of the code-level defects -/

/-- Claim C2.  The row-key consistency invariant is breakable through the
public operations: construct `MultiDirMap(["a"], 1, [["x"]])`, keep the row
handle returned by subscript-get, `clear()` the map, then set the row's field
`a` to `"z"`.  `_modify_row_attr` inserts the row under the new key `"z"` and
then raises `KeyError` deleting the absent old key `"x"`, so the slot commit
in `__setattr__` never runs: the index now files the row under `"z"` while
the row's field `a` still reads `"x"`, falsifying the invariant. -/
theorem C2_row_key_invariant_breaks :
    constructM ["a"] (some 1) (some (.dlist [.rlist [.str "x"]])) = .ok mX1 ∧
    getitemM mX1 (.str "x") = .ok 0 ∧
    clearM mX1 = (mX1c, .ok ()) ∧
    (setRowField mX1c 0 "a" (.str "z")).2 = .error .keyError ∧
    aLookup mX1s.dicts "a" = some [(.str "z", 0)] ∧
    rowGetField mX1s 0 "a" = some (.str "x") ∧
    rowKeyInvariant mX1s = false := by decide

/-- Claim C3.  Under policy `"primary"` a primary-column-only collision is
classified insertable, but the overwrite never happens: `_determine_deletable`
calls `.aslist()` on the occupying row, which the row class does not define,
so `update([["x", "z"]], overwrite="primary")` on a table holding `["x", "y"]`
raises `AttributeError` and leaves the old entry in place instead of
overwriting it. -/
theorem C3_primary_overwrite_crashes :
    (updateM mXY (.dlist [.rlist [.str "x", .str "z"]]) "primary" false).2 =
      .error (.attributeError "aslist") ∧
    (updateM mXY (.dlist [.rlist [.str "x", .str "z"]]) "primary" false).1.dicts =
      mXY.dicts ∧
    rowToList (updateM mXY (.dlist [.rlist [.str "x", .str "z"]]) "primary" false).1 0 =
      [.str "x", .str "y"] := by decide

/-- Claim C4.  `popitem` on a non-empty table removes the last primary entry
and then calls `item[1].asdict()`, which raises `AttributeError`: the
exception escapes after the primary index shrank but before any secondary
index was touched, leaving the indices with different cardinalities between
public calls. -/
theorem C4_popitem_breaks_cardinality :
    indexCardsEqual mXY = true ∧
    (popitemM mXY).2 = .error (.attributeError "asdict") ∧
    (aLookup (popitemM mXY).1.dicts "a").getD [] = [] ∧
    (aLookup (popitemM mXY).1.dicts "b").getD [] = [(.str "y", 0)] ∧
    indexCardsEqual (popitemM mXY).1 = false := by decide

/-- Claim C5.  Delete-by-key of an absent key raises `KeyError` and leaves
the table unchanged, but for a present key `__delitem__` calls
`item.asdict()`, which the row class does not define: the operation raises
`AttributeError` and removes nothing, instead of removing the row from every
key dict. -/
theorem C5_delete_raises_attribute_error :
    delitemM mXY (.str "q") = (mXY, .error .keyError) ∧
    aLookup (primaryDict mXY) (.str "x") = some 0 ∧
    delitemM mXY (.str "x") = (mXY, .error (.attributeError "asdict")) := by decide

/-- Claim C6.  A tuple row of acceptable arity is admitted by the isinstance
check of `_format_data` but then hits `row + [None] * (len(columns) -
len(row))`, a tuple-plus-list concatenation that raises `TypeError` in
CPython — even for a full-length tuple where the padding list is empty —
while the corresponding list row is accepted and right-padded. -/
theorem C6_tuple_rows_raise_type_error :
    formatData ["a", "b"] 1 (.dlist [.rtuple [.str "x"]]) =
      .error (.typeError "can only concatenate tuple to tuple") ∧
    formatData ["a", "b"] 1 (.dlist [.rtuple [.str "x", .str "y"]]) =
      .error (.typeError "can only concatenate tuple to tuple") ∧
    formatData ["a", "b"] 1 (.dlist [.rlist [.str "x"]]) =
      .ok [[.str "x", .pynone]] ∧
    (updateM mXY (.dlist [.rtuple [.str "p", .str "q"]]) "primary" false).2 =
      .error (.typeError "can only concatenate tuple to tuple") := by decide

theorem rStoreSetField_self (s : RowStore) (rid : Nat) (col : String) (v : PyVal)
    (fs : List (String × PyVal)) (h1 : aLookup s rid = some fs)
    (h2 : aLookup fs col = some v) : rStoreSetField s rid col v = s := by
  induction s with
  | nil => simp at h1
  | cons p s ih =>
    obtain ⟨i, fs'⟩ := p
    by_cases hp : i = rid
    · rw [aLookup_cons, if_pos hp] at h1
      cases h1
      subst hp
      simp [rStoreSetField, aSet_self fs col v h2]
    · rw [aLookup_cons, if_neg hp] at h1
      simp [rStoreSetField, hp, ih h1]

/-- Claim C7.  Setting a row's field (key or non-key column) to a value equal
to its current value takes the first branch of `_modify_row_attr` (`value ==
row[col]`), which returns without touching any key dict and without raising;
the subsequent slot commit writes back the identical value, so the whole map
state is unchanged and the result is a successful no-op. -/
theorem C7_noop_field_set (m : MDM) (rid : Nat) (col : String) (v : PyVal)
    (h : rowGetField m rid col = some v) :
    setRowField m rid col v = (m, .ok ()) := by
  have hmod : modifyRowAttr m rid col v v = (m, .ok ()) := by
    unfold modifyRowAttr
    rw [h]
    simp
  obtain ⟨fs, hfs1, hfs2⟩ : ∃ fs, aLookup m.rowStore rid = some fs ∧ aLookup fs col = some v := by
    unfold rowGetField rowFields at h
    cases hl : aLookup m.rowStore rid with
    | none => rw [hl] at h; simp at h
    | some fs => rw [hl] at h; exact ⟨fs, rfl, h⟩
  unfold setRowField
  rw [h]
  simp only [hmod]
  rw [rStoreSetField_self m.rowStore rid col v fs hfs1 hfs2]

theorem ro_modifyRowAttr (m : MDM) (rid : Nat) (col : String) (v old : PyVal)
    (h : m.readOnly = true) : ((modifyRowAttr m rid col v old).1).readOnly = true := by
  unfold modifyRowAttr
  split
  · exact h
  · split
    · exact h
    · split
      · exact h
      · split
        · exact h
        · dsimp only
          split <;> rfl

theorem ro_updateM (m : MDM) (h : m.readOnly = true) (data : InputData) (ow : String)
    (skip : Bool) : ((updateM m data ow skip).1).readOnly = true := by
  unfold updateM
  split
  · exact h
  · dsimp only
    split
    · split <;> rfl
    · rfl

theorem ro_delitemM (m : MDM) (k : PyVal) : ((delitemM m k).1).readOnly = true := by
  unfold delitemM
  dsimp only
  split
  · rfl
  · split
    · rfl
    · split <;> rfl

theorem ro_popM (m : MDM) (h : m.readOnly = true) (k : PyVal) (dflt : Option PyVal) :
    ((popM m k dflt).1).readOnly = true := by
  unfold popM
  split
  · split <;> exact h
  · split
    all_goals
      rename_i rid heq
      have := ro_delitemM m k
      rw [heq] at this
      exact this

theorem ro_popitemM (m : MDM) (h : m.readOnly = true) :
    ((popitemM m).1).readOnly = true := by
  unfold popitemM
  split
  · exact h
  · dsimp only
    split
    · split
      · rfl
      · split <;> rfl
    · rfl

theorem ro_clearM (m : MDM) : ((clearM m).1).readOnly = true := rfl

theorem ro_setRowField (m : MDM) (h : m.readOnly = true) (rid : Nat) (col : String)
    (v : PyVal) : ((setRowField m rid col v).1).readOnly = true := by
  unfold setRowField
  cases hg : rowGetField m rid col with
  | none => exact h
  | some old =>
    have hro := ro_modifyRowAttr m rid col v old h
    cases hm : modifyRowAttr m rid col v old with
    | mk m1 r =>
      rw [hm] at hro
      cases r <;> simp_all

theorem roSetitem_locked (m : MDM) (h : m.readOnly = true) (col : String) (k : PyVal)
    (rid : Nat) : roSetitem m col k rid = (m, .error (.typeError roMsg)) := by
  unfold roSetitem
  simp [h]

theorem roDelitem_locked (m : MDM) (h : m.readOnly = true) (col : String) (k : PyVal) :
    roDelitem m col k = (m, .error (.typeError roMsg)) := by
  unfold roDelitem
  simp [h]

theorem roClear_locked (m : MDM) (h : m.readOnly = true) (col : String) :
    roClear m col = (m, .error (.typeError roMsg)) := by
  unfold roClear
  simp [h]

theorem roPop_locked (m : MDM) (h : m.readOnly = true) (col : String) (k : PyVal) :
    roPop m col k = (m, .error (.typeError roMsg)) := by
  unfold roPop
  simp [h]

theorem roPopitem_locked (m : MDM) (h : m.readOnly = true) (col : String) :
    roPopitem m col = (m, .error (.typeError roMsg)) := by
  unfold roPopitem
  simp [h]

theorem roMerge_locked (m : MDM) (h : m.readOnly = true) (col : String)
    (kvs : List (PyVal × Nat)) : roMerge m col kvs = (m, .error (.typeError roMsg)) := by
  unfold roMerge
  simp [h]

/-- Claim C9.  Every public mutating operation — whether it returns normally
or raises — leaves every key dict read-locked again (the `finally` of
`_writable` always runs, and the paths that never unlock leave the flag as it
was), and on any read-locked state every direct mutation of an exposed index
(`__setitem__`, `__delitem__`, `clear`, `pop`, `popitem`, `update`) raises
the read-only `TypeError` of `if_not_read_only`. -/
theorem C9_write_barrier_relocked (m : MDM) (h : m.readOnly = true) :
    (∀ data ow skip, ((updateM m data ow skip).1).readOnly = true) ∧
    (∀ k v, ((setitemM m k v).1).readOnly = true) ∧
    (∀ k, ((delitemM m k).1).readOnly = true) ∧
    (∀ k dflt, ((popM m k dflt).1).readOnly = true) ∧
    ((popitemM m).1).readOnly = true ∧
    ((clearM m).1).readOnly = true ∧
    (∀ rid col v, ((setRowField m rid col v).1).readOnly = true) ∧
    (∀ m' : MDM, m'.readOnly = true →
      (∀ col k rid, roSetitem m' col k rid = (m', .error (.typeError roMsg))) ∧
      (∀ col k, roDelitem m' col k = (m', .error (.typeError roMsg))) ∧
      (∀ col, roClear m' col = (m', .error (.typeError roMsg))) ∧
      (∀ col k, roPop m' col k = (m', .error (.typeError roMsg))) ∧
      (∀ col, roPopitem m' col = (m', .error (.typeError roMsg))) ∧
      (∀ col kvs, roMerge m' col kvs = (m', .error (.typeError roMsg)))) := by
  refine ⟨fun data ow skip => ro_updateM m h data ow skip,
          fun k v => ro_updateM m h _ _ _,
          fun k => ro_delitemM m k,
          fun k dflt => ro_popM m h k dflt,
          ro_popitemM m h,
          ro_clearM m,
          fun rid col v => ro_setRowField m h rid col v,
          fun m' h' => ⟨fun col k rid => roSetitem_locked m' h' col k rid,
                        fun col k => roDelitem_locked m' h' col k,
                        fun col => roClear_locked m' h' col,
                        fun col k => roPop_locked m' h' col k,
                        fun col => roPopitem_locked m' h' col,
                        fun col kvs => roMerge_locked m' h' col kvs⟩⟩

theorem C9_witness :
    mXY.readOnly = true ∧
    ((updateM mXY (.dlist [.rlist [.str "p", .str "q"]]) "primary" false).1).readOnly = true ∧
    ((popitemM mXY).1).readOnly = true ∧
    roSetitem mXY "a" (.str "k") 7 = (mXY, .error (.typeError roMsg)) := by
  refine ⟨rfl, ?_, ?_, ?_⟩
  · exact (C9_write_barrier_relocked mXY rfl).1 _ "primary" false
  · exact (C9_write_barrier_relocked mXY rfl).2.2.2.2.1
  · exact ((C9_write_barrier_relocked mXY rfl).2.2.2.2.2.2.2 mXY rfl).1 "a" (.str "k") 7

theorem aLookup_of_mem_nodup {K V : Type} [DecidableEq K] (d : List (K × V)) (k : K) (v : V)
    (hnd : NoDupKeys d) (hm : (k, v) ∈ d) : aLookup d k = some v := by
  induction d with
  | nil => simp at hm
  | cons p d ih =>
    obtain ⟨k', v'⟩ := p
    rw [NoDupKeys, aKeys, List.map_cons, List.nodup_cons] at hnd
    rcases List.mem_cons.mp hm with heq | htail
    · cases heq
      simp [aLookup]
    · have hk : k' ≠ k := by
        intro e
        subst e
        exact hnd.1 (List.mem_map.mpr ⟨(k', v), htail, rfl⟩)
      rw [aLookup_cons, if_neg hk]
      exact ih hnd.2 htail

/-- Claim C10.  `MultiDirMap.__eq__` compares the column schema, the
key-column count and the primary key dict only, the latter through
`ReadOnlyDict.__eq__ = dict.__eq__` (order-insensitive, row values compared
by `to_list`): any two tables whose primary indices hold the same
key-to-row-contents — even in different insertion orders, and whatever their
secondary indices hold — compare equal. -/
theorem C10_table_eq_order_insensitive (m1 m2 : MDM)
    (hc : m1.columns = m2.columns) (hk : m1.keyColumns = m2.keyColumns)
    (hnd : NoDupKeys (primaryDict m2))
    (hperm : ((primaryDict m1).map (fun p => (p.1, rowToList m1 p.2))).Perm
             ((primaryDict m2).map (fun p => (p.1, rowToList m2 p.2)))) :
    tableEq m1 m2 = true := by
  have hlen : (primaryDict m1).length = (primaryDict m2).length := by
    have := hperm.length_eq
    simpa using this
  have hall : ∀ p ∈ primaryDict m1,
      (match aLookup (primaryDict m2) p.1 with
       | some rid2 => rowToList m1 p.2 == rowToList m2 rid2
       | none => false) = true := by
    intro p hp
    have hmem : (p.1, rowToList m1 p.2) ∈ (primaryDict m2).map (fun q => (q.1, rowToList m2 q.2)) :=
      hperm.mem_iff.mp (List.mem_map.mpr ⟨p, hp, rfl⟩)
    obtain ⟨q, hq, heq⟩ := List.mem_map.mp hmem
    rw [Prod.mk.injEq] at heq
    obtain ⟨h1, h2⟩ := heq
    have hlk : aLookup (primaryDict m2) p.1 = some q.2 := by
      rw [← h1]
      exact aLookup_of_mem_nodup _ _ _ hnd hq
    rw [hlk]
    simp [h2]
  unfold tableEq pyDictRowEq
  rw [hc, hk]
  simp only [beq_self_eq_true, Bool.true_and, Bool.and_eq_true, List.all_eq_true]
  exact ⟨by simp [hlen], hall⟩

theorem C10_witness :
    tableEq mP1 mP2 = true ∧
    aKeys (primaryDict mP1) ≠ aKeys (primaryDict mP2) ∧
    aLookup mP1.dicts "b" ≠ aLookup mP2.dicts "b" := by
  refine ⟨?_, by decide, by decide⟩
  exact C10_table_eq_order_insensitive mP1 mP2 rfl rfl (by decide) (by decide)

theorem C7_witness :
    rowGetField mXY 0 "b" = some (.str "y") ∧
    setRowField mXY 0 "b" (.str "y") = (mXY, .ok ()) :=
  ⟨by decide, C7_noop_field_set mXY 0 "b" (.str "y") (by decide)⟩

theorem aKeys_addOne (D : DictMap) (c : String) (k : PyVal) (r : Nat) :
    aKeys (addOne D c k r) = aKeys D := by
  unfold addOne
  cases h : aLookup D c with
  | none => rfl
  | some d => exact aKeys_aSet_of_contains D c (aSet d k r) (by simp [aContains, h])

theorem aKeys_applyAdds (L : List (String × PyVal × Nat)) :
    ∀ D : DictMap, aKeys (applyAdds D L) = aKeys D := by
  induction L with
  | nil => intro D; rfl
  | cons p L ih =>
    intro D
    rw [applyAdds, ih, aKeys_addOne]

theorem fresh_step (D : DictMap) (c1 : String) (k1 : PyVal) (r1 : Nat) (d1 : PyDict)
    (hd1 : aLookup D c1 = some d1)
    (L : List (String × PyVal × Nat))
    (hfresh : ∀ p ∈ L, ∃ d, aLookup D p.1 = some d ∧ aContains d p.2.1 = false)
    (hnotin : (c1, k1) ∉ addPairs L) :
    ∀ p ∈ L, ∃ d, aLookup (aSet D c1 (d1 ++ [(k1, r1)])) p.1 = some d ∧
      aContains d p.2.1 = false := by
  intro p hp
  obtain ⟨dq, hdq, hfq⟩ := hfresh p hp
  by_cases hqc : c1 = p.1
  · have hdd : dq = d1 := by
      rw [hqc] at hd1
      rw [hd1] at hdq
      exact (Option.some.inj hdq).symm
    subst hdd
    refine ⟨dq ++ [(k1, r1)], ?_, ?_⟩
    · rw [← hqc]
      exact aLookup_aSet D c1 _
    · rw [aContains_append, hfq, Bool.false_or]
      have hne : p.2.1 ≠ k1 := by
        intro e
        apply hnotin
        rw [addPairs, List.mem_map]
        exact ⟨p, hp, by rw [← hqc, e]⟩
      have hne' : ¬k1 = p.2.1 := fun h => hne h.symm
      simp [aContains, aLookup, hne']
  · rw [aLookup_aSet_ne D c1 p.1 _ hqc]
    exact ⟨dq, hdq, hfq⟩

theorem applyAdds_lookup (L : List (String × PyVal × Nat)) :
    ∀ D : DictMap,
      (∀ p ∈ L, ∃ d, aLookup D p.1 = some d ∧ aContains d p.2.1 = false) →
      (addPairs L).Nodup →
      ∀ c, aLookup (applyAdds D L) c = (aLookup D c).map (fun d => d ++ addsFor L c) := by
  induction L with
  | nil =>
    intro D _ _ c
    simp only [applyAdds, addsFor, List.filterMap_nil, List.append_nil]
    cases aLookup D c <;> rfl
  | cons p L ih =>
    intro D hfresh hnd c
    obtain ⟨c1, k1, r1⟩ := p
    obtain ⟨d1, hd1, hf1⟩ := hfresh (c1, k1, r1) (List.mem_cons_self _ _)
    dsimp only at hd1 hf1
    rw [addPairs, List.map_cons, List.nodup_cons] at hnd
    have hAdd : addOne D c1 k1 r1 = aSet D c1 (aSet d1 k1 r1) := by
      unfold addOne
      rw [hd1]
    rw [aSet_of_not_contains d1 k1 r1 hf1] at hAdd
    have hfresh' := fresh_step D c1 k1 r1 d1 hd1 L
      (fun q hq => hfresh q (List.mem_cons_of_mem _ hq)) hnd.1
    rw [applyAdds]
    dsimp only
    rw [hAdd, ih _ hfresh' hnd.2 c]
    by_cases hc : c1 = c
    · subst hc
      rw [aLookup_aSet, hd1]
      simp [addsFor, List.append_assoc]
    · rw [aLookup_aSet_ne D c1 c _ hc]
      have hsk : addsFor ((c1, k1, r1) :: L) c = addsFor L c := by
        simp [addsFor, hc]
      rw [hsk]

theorem delAdded_applyAdds (L : List (String × PyVal × Nat)) :
    ∀ D : DictMap, NoDupKeys D →
      (∀ p ∈ L, ∃ d, aLookup D p.1 = some d ∧ aContains d p.2.1 = false) →
      (addPairs L).Nodup →
      delAddedLoop (applyAdds D L) (addPairs L) = (D, none) := by
  induction L with
  | nil => intro D _ _ _; rfl
  | cons p L ih =>
    intro D hndD hfresh hnd
    obtain ⟨c1, k1, r1⟩ := p
    obtain ⟨d1, hd1, hf1⟩ := hfresh (c1, k1, r1) (List.mem_cons_self _ _)
    dsimp only at hd1 hf1
    rw [addPairs, List.map_cons, List.nodup_cons] at hnd
    have htf : ∀ q ∈ L, ∃ d, aLookup D q.1 = some d ∧ aContains d q.2.1 = false :=
      fun q hq => hfresh q (List.mem_cons_of_mem _ hq)
    have hAdd : addOne D c1 k1 r1 = aSet D c1 (aSet d1 k1 r1) := by
      unfold addOne
      rw [hd1]
    rw [aSet_of_not_contains d1 k1 r1 hf1] at hAdd
    have hfresh' := fresh_step D c1 k1 r1 d1 hd1 L htf hnd.1
    have hlk : aLookup (applyAdds (aSet D c1 (d1 ++ [(k1, r1)])) L) c1 =
        some ((d1 ++ [(k1, r1)]) ++ addsFor L c1) := by
      rw [applyAdds_lookup L _ hfresh' hnd.2 c1, aLookup_aSet]
      rfl
    have hdel : aDel ((d1 ++ [(k1, r1)]) ++ addsFor L c1) k1 = .ok (d1 ++ addsFor L c1) := by
      rw [List.append_assoc, List.singleton_append]
      exact aDel_middle d1 (addsFor L c1) k1 r1 hf1
    have hcontQ : aContains (applyAdds (aSet D c1 (d1 ++ [(k1, r1)])) L) c1 = true := by
      simp [aContains, hlk]
    have hcontD : aContains D c1 = true := by
      simp [aContains, hd1]
    have hext : aSet (applyAdds (aSet D c1 (d1 ++ [(k1, r1)])) L) c1 (d1 ++ addsFor L c1)
        = applyAdds D L := by
      apply aExt
      · rw [aKeys_aSet_of_contains _ _ _ hcontQ, aKeys_applyAdds, aKeys_applyAdds,
          aKeys_aSet_of_contains _ _ _ hcontD]
      · rw [NoDupKeys, aKeys_aSet_of_contains _ _ _ hcontQ, aKeys_applyAdds,
          aKeys_aSet_of_contains _ _ _ hcontD]
        exact hndD
      · intro x
        by_cases hx : c1 = x
        · subst hx
          rw [aLookup_aSet, applyAdds_lookup L D htf hnd.2 c1, hd1]
          rfl
        · rw [aLookup_aSet_ne _ c1 x _ hx, applyAdds_lookup L _ hfresh' hnd.2 x,
            applyAdds_lookup L D htf hnd.2 x, aLookup_aSet_ne D c1 x _ hx]
    rw [applyAdds]
    dsimp only
    rw [hAdd, addPairs, List.map_cons]
    dsimp only
    rw [delAddedLoop, hlk]
    simp only [hdel]
    rw [hext]
    exact ih D hndD htf hnd.2

theorem delAddedLoop_append (xs ys : List (String × PyVal)) :
    ∀ D, delAddedLoop D (xs ++ ys) =
      (match delAddedLoop D xs with
       | (D', none) => delAddedLoop D' ys
       | (D', some e) => (D', some e)) := by
  induction xs with
  | nil => intro D; rfl
  | cons q xs ih =>
    intro D
    obtain ⟨c, k⟩ := q
    simp only [List.cons_append, delAddedLoop]
    cases hL : aLookup D c with
    | none => rfl
    | some d =>
      dsimp only
      cases hD : aDel d k with
      | error e => rfl
      | ok d' => simpa using ih (aSet D c d')

theorem rollbackDelLoop_join (aes : List (List (String × PyVal))) :
    ∀ D, rollbackDelLoop D aes = delAddedLoop D aes.flatten := by
  induction aes with
  | nil => intro D; rfl
  | cons ae aes ih =>
    intro D
    rw [List.flatten_cons, rollbackDelLoop, delAddedLoop_append ae aes.flatten D]
    cases h : delAddedLoop D ae with
    | mk D' e =>
      cases e with
      | none => exact ih D'
      | some err => rfl

theorem NoDupKeys_foldl_aSet {K V : Type} [DecidableEq K] (ps : List (K × V)) :
    ∀ d : List (K × V), NoDupKeys d →
      NoDupKeys (ps.foldl (fun d p => aSet d p.1 p.2) d) := by
  induction ps with
  | nil => intro d h; exact h
  | cons p ps ih =>
    intro d h
    exact ih (aSet d p.1 p.2) (NoDupKeys_aSet d p.1 p.2 h)

theorem zipToDict_nodup (cols : List String) (vals : List PyVal) :
    NoDupKeys (zipToDict cols vals) :=
  NoDupKeys_foldl_aSet (List.zip cols vals) [] (by simp [NoDupKeys, aKeys])

theorem NoDupKeys_filterMap {K V W : Type} [DecidableEq K] (es : List (K × V))
    (f : K × V → Option (K × W)) (hf : ∀ p q, f p = some q → q.1 = p.1)
    (h : NoDupKeys es) : NoDupKeys (es.filterMap f) := by
  induction es with
  | nil => simp [NoDupKeys, aKeys]
  | cons p es ih =>
    rw [NoDupKeys, aKeys, List.map_cons, List.nodup_cons] at h
    rw [List.filterMap_cons]
    cases hfp : f p with
    | none => exact ih h.2
    | some q =>
      rw [NoDupKeys, aKeys, List.map_cons, List.nodup_cons]
      refine ⟨?_, ih h.2⟩
      intro hmem
      rw [List.mem_map] at hmem
      obtain ⟨r, hr, hr1⟩ := hmem
      rw [List.mem_filterMap] at hr
      obtain ⟨s, hs, hsr⟩ := hr
      apply h.1
      rw [List.mem_map]
      refine ⟨s, hs, ?_⟩
      rw [← hf s r hsr, hr1]
      exact hf p q hfp

theorem aContains_bool_congr {K V : Type} [DecidableEq K] (d1 d2 : List (K × V))
    (h : aKeys d1 = aKeys d2) : ∀ x, aContains d1 x = aContains d2 x := by
  intro x
  rw [Bool.eq_iff_iff, aContains_iff_mem, aContains_iff_mem, h]

theorem rowAdds_congr (D D' : DictMap) (rid : Nat) (es : List (String × PyVal))
    (h : ∀ x, aContains D' x = aContains D x) :
    rowAdds D' rid es = rowAdds D rid es := by
  unfold rowAdds
  induction es with
  | nil => rfl
  | cons p es ih =>
    rw [List.filterMap_cons, List.filterMap_cons, h p.1, ih]

theorem dupsOf_any_false (D : DictMap) (es : List (String × PyVal))
    (h : (dupsOf D es).any (fun p => p.2) = false) :
    ∀ p ∈ es, ∀ d, aLookup D p.1 = some d → aContains d p.2 = false := by
  intro p hp d hd
  have hmem : (p.1, aContains d p.2) ∈ dupsOf D es := by
    rw [dupsOf, List.mem_filterMap]
    exact ⟨p, hp, by rw [hd]⟩
  rw [List.any_eq_false] at h
  have := h _ hmem
  simpa using this

theorem rowAdds_fresh (D : DictMap) (rid : Nat) (es : List (String × PyVal))
    (h : (dupsOf D es).any (fun p => p.2) = false) :
    ∀ p ∈ rowAdds D rid es, ∃ d, aLookup D p.1 = some d ∧ aContains d p.2.1 = false := by
  intro p hp
  rw [rowAdds, List.mem_filterMap] at hp
  obtain ⟨q, hq, hqe⟩ := hp
  by_cases hc : aContains D q.1 = true
  · rw [if_pos hc] at hqe
    cases hqe
    rw [aContains] at hc
    obtain ⟨d, hd⟩ := Option.isSome_iff_exists.mp hc
    exact ⟨d, hd, dupsOf_any_false D es h q hq d hd⟩
  · rw [if_neg hc] at hqe
    cases hqe

theorem rowAdds_nodupkeys (D : DictMap) (rid : Nat) (es : List (String × PyVal))
    (h : NoDupKeys es) : NoDupKeys (rowAdds D rid es) := by
  refine NoDupKeys_filterMap es _ (fun p q hq => ?_) h
  by_cases hc : aContains D p.1 = true
  · rw [if_pos hc] at hq
    cases hq
    rfl
  · rw [if_neg hc] at hq
    cases hq

theorem addPairs_map_fst (L : List (String × PyVal × Nat)) :
    (addPairs L).map Prod.fst = L.map Prod.fst := by
  rw [addPairs, List.map_map]
  rfl

theorem rowAdds_pairs_nodup (D : DictMap) (rid : Nat) (es : List (String × PyVal))
    (h : NoDupKeys es) : (addPairs (rowAdds D rid es)).Nodup := by
  have h1 := rowAdds_nodupkeys D rid es h
  rw [NoDupKeys, aKeys, ← addPairs_map_fst] at h1
  exact List.Nodup.of_map Prod.fst h1

theorem cleanAddLoop_spec (rid : Nat) (es : List (String × PyVal)) :
    ∀ (D : DictMap) (ae0 : List (String × PyVal)),
      NoDupKeys es →
      (∀ p ∈ es, aContains ae0 p.1 = false) →
      cleanAddLoop D rid es ae0 =
        (applyAdds D (rowAdds D rid es), ae0 ++ addPairs (rowAdds D rid es)) := by
  induction es with
  | nil =>
    intro D ae0 _ _
    simp [cleanAddLoop, rowAdds, applyAdds, addPairs]
  | cons p es ih =>
    intro D ae0 hnd hae
    obtain ⟨c, k⟩ := p
    rw [NoDupKeys, aKeys, List.map_cons, List.nodup_cons] at hnd
    rw [cleanAddLoop]
    cases hL : aLookup D c with
    | none =>
      have hcf : aContains D c = false := by simp [aContains, hL]
      have hskip : rowAdds D rid ((c, k) :: es) = rowAdds D rid es := by
        rw [rowAdds, List.filterMap_cons]
        simp only [hcf]
        rfl
      rw [hskip]
      exact ih D ae0 hnd.2 (fun q hq => hae q (List.mem_cons_of_mem _ hq))
    | some d =>
      have hct : aContains D c = true := by simp [aContains, hL]
      have hcons : rowAdds D rid ((c, k) :: es) = (c, k, rid) :: rowAdds D rid es := by
        rw [rowAdds, List.filterMap_cons]
        simp only [hct]
        rfl
      have hcongr : rowAdds (aSet D c (aSet d k rid)) rid es = rowAdds D rid es :=
        rowAdds_congr D _ rid es
          (aContains_bool_congr _ D (aKeys_aSet_of_contains D c (aSet d k rid) hct))
      have hae0 : aSet ae0 c k = ae0 ++ [(c, k)] :=
        aSet_of_not_contains ae0 c k (hae (c, k) (List.mem_cons_self _ _))
      have haeN : ∀ q ∈ es, aContains (aSet ae0 c k) q.1 = false := by
        intro q hq
        have hne : c ≠ q.1 := by
          intro e
          exact hnd.1 (by rw [e]; exact List.mem_map.mpr ⟨q, hq, rfl⟩)
        rw [aContains, aLookup_aSet_ne ae0 c q.1 k hne]
        exact hae q (List.mem_cons_of_mem _ hq)
      dsimp only
      rw [ih (aSet D c (aSet d k rid)) (aSet ae0 c k) hnd.2 haeN, hcongr, hcons, hae0]
      have happly : applyAdds D ((c, k, rid) :: rowAdds D rid es) =
          applyAdds (aSet D c (aSet d k rid)) (rowAdds D rid es) := by
        rw [applyAdds]
        dsimp only
        have : addOne D c k rid = aSet D c (aSet d k rid) := by
          unfold addOne
          rw [hL]
        rw [this]
      rw [happly]
      simp [addPairs, List.append_assoc]

theorem rowCallAslist_err (m : MDM) (rid : Nat) :
    rowCallAslist m rid = .error (.attributeError "aslist") := by
  rw [rowCallAslist, if_neg]
  decide

theorem rowCallAsdict_err (m : MDM) (rid : Nat) :
    rowCallAsdict m rid = .error (.attributeError "asdict") := by
  rw [rowCallAsdict, if_neg]
  decide

theorem dups_any_true_witness (D : DictMap) (es : List (String × PyVal)) (hnd : NoDupKeys es)
    (h : (dupsOf D es).any (fun p => p.2) = true) :
    ∃ p ∈ es, aContains D p.1 = true ∧ aLookup (dupsOf D es) p.1 = some true := by
  rw [List.any_eq_true] at h
  obtain ⟨q, hq, hqt⟩ := h
  rw [dupsOf, List.mem_filterMap] at hq
  obtain ⟨p, hp, hpe⟩ := hq
  cases hL : aLookup D p.1 with
  | none =>
    rw [hL] at hpe
    cases hpe
  | some d =>
    rw [hL] at hpe
    cases hpe
    refine ⟨p, hp, by simp [aContains, hL], ?_⟩
    have hndD : NoDupKeys (dupsOf D es) := by
      refine NoDupKeys_filterMap es _ (fun r s hs => ?_) hnd
      cases hLr : aLookup D r.1 with
      | none => rw [hLr] at hs; cases hs
      | some dr => rw [hLr] at hs; cases hs; rfl
    have hlk : aLookup (dupsOf D es) p.1 = some (aContains d p.2) := by
      refine aLookup_of_mem_nodup _ _ _ hndD ?_
      rw [dupsOf, List.mem_filterMap]
      exact ⟨p, hp, by rw [hL]⟩
    rw [hlk]
    simp only at hqt
    rw [hqt]

theorem determineDeletable_err (m : MDM) (dups : List (String × Bool)) :
    ∀ (es : List (String × PyVal)) (td : List (String × List PyVal)),
      (∃ p ∈ es, aContains m.dicts p.1 = true ∧ aLookup dups p.1 = some true) →
      ∃ e, (determineDeletable m dups es td).2 = some e ∧ e ≠ PyErr.duplicateKeyError := by
  intro es
  induction es with
  | nil =>
    intro td h
    obtain ⟨p, hp, _⟩ := h
    simp at hp
  | cons q es ih =>
    intro td h
    obtain ⟨c, k⟩ := q
    rw [determineDeletable]
    by_cases hc : aContains m.dicts c = true
    · rw [if_pos hc]
      cases hd : aLookup dups c with
      | none => exact ⟨.keyError, rfl, by decide⟩
      | some b =>
        cases b with
        | false =>
          dsimp only
          refine ih td ?_
          obtain ⟨p, hp, hp1, hp2⟩ := h
          rcases List.mem_cons.mp hp with he | ht
          · subst he
            dsimp only at hp2
            rw [hd] at hp2
            cases hp2
          · exact ⟨p, ht, hp1, hp2⟩
        | true =>
          rw [aContains] at hc
          obtain ⟨d, hD⟩ := Option.isSome_iff_exists.mp hc
          simp only [hD, if_pos]
          cases hK : aLookup d k with
          | none => exact ⟨.keyError, rfl, by decide⟩
          | some rid =>
            simp only [rowCallAslist_err]
            exact ⟨.attributeError "aslist", rfl, by decide⟩
    · rw [if_neg hc]
      refine ih td ?_
      obtain ⟨p, hp, hp1, hp2⟩ := h
      rcases List.mem_cons.mp hp with he | ht
      · subst he
        exact absurd hp1 hc
      · exact ⟨p, ht, hp1, hp2⟩

theorem aDel_err {K V : Type} [DecidableEq K] (d : List (K × V)) (k : K) (e : PyErr)
    (h : aDel d k = .error e) : e = .keyError := by
  induction d with
  | nil =>
    rw [aDel] at h
    cases h
    rfl
  | cons p d ih =>
    obtain ⟨k', v'⟩ := p
    rw [aDel] at h
    by_cases hk : k' = k
    · rw [if_pos hk] at h
      cases h
    · rw [if_neg hk] at h
      cases hd : aDel d k with
      | ok d' => rw [hd] at h; cases h
      | error e' =>
        rw [hd] at h
        cases h
        exact ih hd

theorem delAddedLoop_err (xs : List (String × PyVal)) :
    ∀ (D : DictMap) (e : PyErr), (delAddedLoop D xs).2 = some e → e = .keyError := by
  induction xs with
  | nil => intro D e h; cases h
  | cons q xs ih =>
    intro D e h
    obtain ⟨c, k⟩ := q
    rw [delAddedLoop] at h
    cases hL : aLookup D c with
    | none =>
      rw [hL] at h
      cases h
      rfl
    | some d =>
      rw [hL] at h
      dsimp only at h
      cases hd : aDel d k with
      | error e' =>
        rw [hd] at h
        cases h
        exact aDel_err d k e hd
      | ok d' =>
        rw [hd] at h
        exact ih (aSet D c d') e h

theorem rollbackDelLoop_err (aes : List (List (String × PyVal))) :
    ∀ (D : DictMap) (e : PyErr), (rollbackDelLoop D aes).2 = some e → e = .keyError := by
  intro D e h
  rw [rollbackDelLoop_join] at h
  exact delAddedLoop_err aes.flatten D e h

theorem restoreLoop_err (bk : List (PyVal × (String × Nat))) :
    ∀ (D : DictMap) (e : PyErr), (restoreLoop D bk).2 = some e → e = .keyError := by
  induction bk with
  | nil => intro D e h; cases h
  | cons q bk ih =>
    intro D e h
    obtain ⟨k, c, rid⟩ := q
    rw [restoreLoop] at h
    cases hL : aLookup D c with
    | none =>
      rw [hL] at h
      cases h
      rfl
    | some d =>
      rw [hL] at h
      exact ih _ e h

theorem restoreAllLoop_err (bks : List (List (PyVal × (String × Nat)))) :
    ∀ (D : DictMap) (e : PyErr), (restoreAllLoop D bks).2 = some e → e = .keyError := by
  induction bks with
  | nil => intro D e h; cases h
  | cons bk bks ih =>
    intro D e h
    rw [restoreAllLoop] at h
    cases hr : restoreLoop D bk with
    | mk D' err =>
      cases err with
      | none =>
        rw [hr] at h
        exact ih D' e h
      | some e' =>
        rw [hr] at h
        cases h
        exact restoreLoop_err bk D e (by rw [hr])

theorem rollbackRun_err (D : DictMap) (aes : List (List (String × PyVal)))
    (bks : List (List (PyVal × (String × Nat)))) (e : PyErr)
    (h : (rollbackRun D aes bks).2 = some e) : e = .keyError := by
  rw [rollbackRun] at h
  cases hr : rollbackDelLoop D aes with
  | mk D' err =>
    cases err with
    | none =>
      rw [hr] at h
      exact restoreAllLoop_err bks D' e h
    | some e' =>
      rw [hr] at h
      cases h
      exact rollbackDelLoop_err aes D e (by rw [hr])

theorem notInsertable_err (cols : List String) (dups : List (String × Bool)) (ow : String)
    (e : PyErr) (h : notInsertable cols dups ow = .error e) : e ≠ .duplicateKeyError := by
  rw [notInsertable] at h
  split at h
  · cases h
  · split at h
    · cases hh : cols.head? with
      | none =>
        rw [hh] at h
        cases h
        decide
      | some c0 =>
        rw [hh] at h
        cases h
    · split at h
      · cases hh : cols.head? with
        | none =>
          rw [hh] at h
          cases h
          decide
        | some c0 =>
          rw [hh] at h
          dsimp only at h
          cases hd : aLookup dups c0 with
          | none =>
            rw [hd] at h
            cases h
            decide
          | some b =>
            rw [hd] at h
            cases h
      · cases h

theorem addEntry_clean (m : MDM) (row : List PyVal) (acc : UpdAcc) (ow : String) (skip : Bool)
    (hany : (dupsOf m.dicts (zipToDict m.columns row)).any (fun p => p.2) = false) :
    addEntry m row acc ow skip =
      ({m with rowStore := m.rowStore ++ [(m.nextId, zipToDict m.columns row)],
               nextId := m.nextId + 1,
               dicts := applyAdds m.dicts (rowAdds m.dicts m.nextId (zipToDict m.columns row))},
       {acc with addedEntries :=
          acc.addedEntries ++ [addPairs (rowAdds m.dicts m.nextId (zipToDict m.columns row))]},
       none) := by
  unfold addEntry
  dsimp only
  rw [if_pos hany]
  rw [cleanAddLoop_spec m.nextId (zipToDict m.columns row) m.dicts []
    (zipToDict_nodup m.columns row) (fun p _ => rfl)]
  simp

theorem addEntry_dup (m : MDM) (row : List PyVal) (acc : UpdAcc) (ow : String)
    (hany : (dupsOf m.dicts (zipToDict m.columns row)).any (fun p => p.2) = true) :
    (∃ D', addEntry m row acc ow false =
        ({m with rowStore := m.rowStore ++ [(m.nextId, zipToDict m.columns row)],
                 nextId := m.nextId + 1, dicts := D'},
         acc, some .duplicateKeyError) ∧
        rollbackRun m.dicts acc.addedEntries acc.backups = (D', none)) ∨
    (∃ m' acc' e, addEntry m row acc ow false = (m', acc', some e) ∧
        e ≠ PyErr.duplicateKeyError) := by
  have hne : ¬((dupsOf m.dicts (zipToDict m.columns row)).any (fun p => p.2) = false) := by
    rw [hany]
    decide
  unfold addEntry
  dsimp only
  rw [if_neg hne]
  cases hni : notInsertable m.columns (dupsOf m.dicts (zipToDict m.columns row)) ow with
  | error e =>
    right
    exact ⟨_, _, e, rfl, notInsertable_err m.columns _ ow e hni⟩
  | ok b =>
    cases b with
    | true =>
      dsimp only [Bool.false_eq_true, if_false]
      cases hr : rollbackRun m.dicts acc.addedEntries acc.backups with
      | mk D' err =>
        cases err with
        | none =>
          left
          exact ⟨D', rfl, rfl⟩
        | some e =>
          right
          refine ⟨_, _, e, rfl, ?_⟩
          have := rollbackRun_err m.dicts acc.addedEntries acc.backups e (by rw [hr])
          rw [this]
          decide
    | false =>
      dsimp only
      have hwit := dups_any_true_witness m.dicts (zipToDict m.columns row)
        (zipToDict_nodup m.columns row) hany
      obtain ⟨e, he, hne'⟩ := determineDeletable_err
        {m with rowStore := m.rowStore ++ [(m.nextId, zipToDict m.columns row)],
                nextId := m.nextId + 1}
        (dupsOf m.dicts (zipToDict m.columns row)) (zipToDict m.columns row)
        acc.toDelete hwit
      cases hd : determineDeletable
          {m with rowStore := m.rowStore ++ [(m.nextId, zipToDict m.columns row)],
                  nextId := m.nextId + 1}
          (dupsOf m.dicts (zipToDict m.columns row)) (zipToDict m.columns row)
          acc.toDelete with
      | mk td' err =>
        rw [hd] at he
        dsimp only at he
        cases err with
        | none => cases he
        | some e' =>
          cases he
          right
          exact ⟨_, _, e, rfl, hne'⟩

theorem applyAdds_append (L1 L2 : List (String × PyVal × Nat)) :
    ∀ D, applyAdds D (L1 ++ L2) = applyAdds (applyAdds D L1) L2 := by
  induction L1 with
  | nil => intro D; rfl
  | cons p L1 ih =>
    intro D
    rw [List.cons_append, applyAdds, applyAdds]
    exact ih (addOne D p.1 p.2.1 p.2.2)

theorem mem_addPairs (L : List (String × PyVal × Nat)) (c : String) (k : PyVal) :
    (c, k) ∈ addPairs L ↔ ∃ r, (c, k, r) ∈ L := by
  rw [addPairs, List.mem_map]
  constructor
  · rintro ⟨⟨c', k', r⟩, hp, he⟩
    cases he
    exact ⟨r, hp⟩
  · rintro ⟨r, hr⟩
    exact ⟨(c, k, r), hr, rfl⟩

theorem mem_addsFor (L : List (String × PyVal × Nat)) (c : String) (k : PyVal) (r : Nat)
    (h : (c, k, r) ∈ L) : (k, r) ∈ addsFor L c := by
  rw [addsFor, List.mem_filterMap]
  exact ⟨(c, k, r), h, by simp⟩

theorem fresh_transfer (D0 : DictMap) (L : List (String × PyVal × Nat))
    (hfresh : ∀ p ∈ L, ∃ d, aLookup D0 p.1 = some d ∧ aContains d p.2.1 = false)
    (hnd : (addPairs L).Nodup)
    (R : List (String × PyVal × Nat))
    (hR : ∀ p ∈ R, ∃ d, aLookup (applyAdds D0 L) p.1 = some d ∧ aContains d p.2.1 = false) :
    ∀ p ∈ R, ∃ d, aLookup D0 p.1 = some d ∧ aContains d p.2.1 = false := by
  intro p hp
  obtain ⟨d, hd, hc⟩ := hR p hp
  rw [applyAdds_lookup L D0 hfresh hnd p.1] at hd
  cases hd0 : aLookup D0 p.1 with
  | none => rw [hd0] at hd; cases hd
  | some d0 =>
    rw [hd0] at hd
    cases hd
    rw [aContains_append] at hc
    exact ⟨d0, rfl, by simpa using And.left (by simpa using hc)⟩

theorem addPairs_mem_contains (D0 : DictMap) (L : List (String × PyVal × Nat))
    (hfresh : ∀ p ∈ L, ∃ d, aLookup D0 p.1 = some d ∧ aContains d p.2.1 = false)
    (hnd : (addPairs L).Nodup) (c : String) (k : PyVal)
    (h : (c, k) ∈ addPairs L) :
    ∃ d, aLookup (applyAdds D0 L) c = some d ∧ aContains d k = true := by
  obtain ⟨r, hr⟩ := (mem_addPairs L c k).mp h
  obtain ⟨d0, hd0, _⟩ := hfresh (c, k, r) hr
  dsimp only at hd0
  refine ⟨d0 ++ addsFor L c, ?_, ?_⟩
  · rw [applyAdds_lookup L D0 hfresh hnd c, hd0]
    rfl
  · rw [aContains_append, Bool.or_eq_true]
    right
    rw [aContains_iff_mem]
    rw [aKeys, List.mem_map]
    exact ⟨(k, r), mem_addsFor L c k r hr, rfl⟩

theorem updateLoop_dup_rollback (ow : String) (rows : List (List PyVal)) :
    ∀ (m0 m : MDM) (acc : UpdAcc) (m' : MDM) (acc' : UpdAcc),
      NoDupKeys m0.dicts →
      UpdInv m0 m acc →
      updateLoop ow false m rows acc = (m', acc', some .duplicateKeyError) →
      m'.dicts = m0.dicts ∧ m'.columns = m0.columns ∧ m'.keyColumns = m0.keyColumns ∧
      m'.readOnly = m0.readOnly ∧ ∃ ext, m'.rowStore = m0.rowStore ++ ext := by
  induction rows with
  | nil =>
    intro m0 m acc m' acc' hnd hinv h
    rw [updateLoop] at h
    simp at h
  | cons r rs ih =>
    intro m0 m acc m' acc' hnd hinv h
    rw [updateLoop] at h
    obtain ⟨hcols, hkc, hro, hbk, ⟨ext, hrst⟩, L, hdicts, hfresh, hndL, hflat⟩ := hinv
    by_cases hany : (dupsOf m.dicts (zipToDict m.columns r)).any (fun p => p.2) = false
    · rw [addEntry_clean m r acc ow false hany] at h
      dsimp only at h
      refine ih m0 _ _ m' acc' hnd ?_ h
      set R := rowAdds m.dicts m.nextId (zipToDict m.columns r) with hR
      have hRfreshM : ∀ p ∈ R, ∃ d, aLookup m.dicts p.1 = some d ∧ aContains d p.2.1 = false :=
        rowAdds_fresh m.dicts m.nextId (zipToDict m.columns r) hany
      have hRfresh0 : ∀ p ∈ R, ∃ d, aLookup m0.dicts p.1 = some d ∧ aContains d p.2.1 = false := by
        rw [hdicts] at hRfreshM
        exact fresh_transfer m0.dicts L hfresh hndL R hRfreshM
      have hRnd : (addPairs R).Nodup :=
        rowAdds_pairs_nodup m.dicts m.nextId _ (zipToDict_nodup m.columns r)
      refine ⟨hcols, hkc, hro, hbk, ⟨ext ++ [(m.nextId, zipToDict m.columns r)], by
        rw [hrst, List.append_assoc]⟩, L ++ R, ?_, ?_, ?_, ?_⟩
      · rw [applyAdds_append, ← hdicts]
      · intro p hp
        rcases List.mem_append.mp hp with hL | hRm
        · exact hfresh p hL
        · exact hRfresh0 p hRm
      · rw [addPairs, List.map_append, List.nodup_append]
        refine ⟨hndL, hRnd, ?_⟩
        intro q hqL hqR
        obtain ⟨c, k⟩ := q
        obtain ⟨d, hd, hct⟩ := addPairs_mem_contains m0.dicts L hfresh hndL c k hqL
        obtain ⟨rq, hrq⟩ := (mem_addPairs R c k).mp hqR
        obtain ⟨d2, hd2, hcf⟩ := hRfreshM (c, k, rq) hrq
        dsimp only at hd2 hcf
        rw [hdicts, hd] at hd2
        cases hd2
        rw [hct] at hcf
        cases hcf
      · rw [List.flatten_append, hflat, List.flatten_cons, List.flatten_nil,
          List.append_nil]
        simp [addPairs]
    · have hany' : (dupsOf m.dicts (zipToDict m.columns r)).any (fun p => p.2) = true := by
        cases hq : (dupsOf m.dicts (zipToDict m.columns r)).any (fun p => p.2) with
        | false => exact absurd hq hany
        | true => rfl
      rcases addEntry_dup m r acc ow hany' with ⟨D', heq, hroll⟩ | ⟨m1, acc1, e, heq, hneq⟩
      · rw [heq] at h
        dsimp only at h
        have hD' : D' = m0.dicts := by
          rw [rollbackRun, hbk] at hroll
          have hdel : rollbackDelLoop m.dicts acc.addedEntries = (m0.dicts, none) := by
            rw [rollbackDelLoop_join, hflat, hdicts]
            exact delAdded_applyAdds L m0.dicts hnd hfresh hndL
          rw [hdel] at hroll
          dsimp only [restoreAllLoop] at hroll
          cases hroll
          rfl
        cases h
        refine ⟨hD', hcols, hkc, hro, ext ++ [(m.nextId, zipToDict m.columns r)], by
          rw [hrst, List.append_assoc]⟩
      · rw [heq] at h
        dsimp only at h
        cases h
        exact absurd rfl hneq

theorem delKeysLoop_err (ks : List PyVal) :
    ∀ (D : DictMap) (c : String) (e : PyErr),
      (delKeysLoop D c ks).2 = some e → e = .keyError := by
  induction ks with
  | nil => intro D c e h; cases h
  | cons k ks ih =>
    intro D c e h
    rw [delKeysLoop] at h
    cases hL : aLookup D c with
    | none =>
      rw [hL] at h
      cases h
      rfl
    | some d =>
      rw [hL] at h
      dsimp only at h
      cases hd : aDel d k with
      | error e' =>
        rw [hd] at h
        cases h
        exact aDel_err d k e hd
      | ok d' =>
        rw [hd] at h
        exact ih (aSet D c d') c e h

theorem deleteLoop_err (td : List (String × List PyVal)) :
    ∀ (D : DictMap) (e : PyErr), (deleteLoop D td).2 = some e → e = .keyError := by
  induction td with
  | nil => intro D e h; cases h
  | cons p td ih =>
    intro D e h
    obtain ⟨c, ks⟩ := p
    rw [deleteLoop] at h
    cases hk : delKeysLoop D c ks with
    | mk D' err =>
      cases err with
      | none =>
        rw [hk] at h
        exact ih D' e h
      | some e' =>
        rw [hk] at h
        cases h
        exact delKeysLoop_err ks D c e (by rw [hk])

theorem aLookup_append_of_some {K V : Type} [DecidableEq K] (s e : List (K × V)) (k : K)
    (v : V) (h : aLookup s k = some v) : aLookup (s ++ e) k = some v := by
  induction s with
  | nil => cases h
  | cons p s ih =>
    obtain ⟨k', v'⟩ := p
    rw [aLookup_cons] at h
    rw [List.cons_append, aLookup_cons]
    by_cases hk : k' = k
    · rwa [if_pos hk] at h ⊢
    · rw [if_neg hk] at h ⊢
      exact ih h

/-- Claim C1.  If a skip-free `update` raises `DuplicateKeyError`, the map is
exactly as before the call: the key dicts are unchanged in content and
insertion order, the schema fields and the read-only flag are unchanged, and
every previously allocated row object still holds the same slot values (the
rollback removed every entry the batch had added; only unreferenced freshly
allocated row objects remain in the heap, as in CPython, where they await
garbage collection).  `DuplicateKeyError` can only escape from the
not-insertable branch of `_add_entry`, whose preceding rows were necessarily
all clean additions, so `_rollback` deletes exactly those additions and
restores the dicts verbatim. -/
theorem C1_update_atomic_on_duplicate (m : MDM) (data : InputData) (ow : String)
    (m' : MDM) (hnd : NoDupKeys m.dicts) (hro : m.readOnly = true)
    (h : updateM m data ow false = (m', .error .duplicateKeyError)) :
    m'.dicts = m.dicts ∧ m'.columns = m.columns ∧ m'.keyColumns = m.keyColumns ∧
    m'.readOnly = m.readOnly ∧
    ∀ rid fs, aLookup m.rowStore rid = some fs → aLookup m'.rowStore rid = some fs := by
  rw [updateM] at h
  cases hf : formatData m.columns m.keyColumns data with
  | error e =>
    rw [hf] at h
    cases h
    exact ⟨rfl, rfl, rfl, rfl, fun rid fs hl => hl⟩
  | ok rows =>
    rw [hf] at h
    dsimp only at h
    cases hu : updateLoop ow false {m with readOnly := false} rows
        (initUpdAcc m.columns m.keyColumns) with
    | mk m2 rest =>
      obtain ⟨acc2, err⟩ := rest
      rw [hu] at h
      cases err with
      | none =>
        dsimp only at h
        cases hd : deleteLoop m2.dicts acc2.toDelete with
        | mk d' derr =>
          rw [hd] at h
          cases derr with
          | none => simp at h
          | some e =>
            dsimp only at h
            cases h
            have := deleteLoop_err acc2.toDelete m2.dicts _ (by rw [hd])
            cases this
      | some e =>
        dsimp only at h
        cases h
        have hinv0 : UpdInv {m with readOnly := false} {m with readOnly := false}
            (initUpdAcc m.columns m.keyColumns) := by
          refine ⟨rfl, rfl, rfl, rfl, ⟨[], (List.append_nil _).symm⟩, [], rfl, ?_, ?_, rfl⟩
          · intro p hp
            cases hp
          · exact List.nodup_nil
        obtain ⟨hd2, hc2, hk2, hr2, ext, hext⟩ :=
          updateLoop_dup_rollback ow rows {m with readOnly := false}
            {m with readOnly := false} (initUpdAcc m.columns m.keyColumns) m2 acc2
            hnd hinv0 hu
        refine ⟨hd2, hc2, hk2, by rw [hro], ?_⟩
        intro rid fs hl
        dsimp only
        rw [hext]
        exact aLookup_append_of_some m.rowStore ext rid fs hl

theorem C1_witness :
    NoDupKeys mXY.dicts ∧ mXY.readOnly = true ∧
    updateM mXY (.dlist [.rlist [.str "p", .str "q"], .rlist [.str "x", .str "w"]])
      "none" false =
      ((updateM mXY (.dlist [.rlist [.str "p", .str "q"], .rlist [.str "x", .str "w"]])
        "none" false).1, .error .duplicateKeyError) ∧
    (updateM mXY (.dlist [.rlist [.str "p", .str "q"], .rlist [.str "x", .str "w"]])
      "none" false).1.dicts = mXY.dicts := by
  refine ⟨by decide, rfl, by decide, ?_⟩
  exact (C1_update_atomic_on_duplicate mXY
    (.dlist [.rlist [.str "p", .str "q"], .rlist [.str "x", .str "w"]]) "none" _
    (by decide) rfl (by decide)).1

theorem aLookup_mem {K V : Type} [DecidableEq K] (d : List (K × V)) (k : K) (v : V)
    (h : aLookup d k = some v) : (k, v) ∈ d := by
  induction d with
  | nil => cases h
  | cons p d ih =>
    obtain ⟨k', v'⟩ := p
    rw [aLookup_cons] at h
    by_cases hk : k' = k
    · rw [if_pos hk] at h
      cases h
      subst hk
      exact List.mem_cons_self _ _
    · rw [if_neg hk] at h
      exact List.mem_cons_of_mem _ (ih h)

theorem mem_aSet {K V : Type} [DecidableEq K] (d : List (K × V)) (k : K) (v : V)
    (p : K × V) (h : p ∈ aSet d k v) : p ∈ d ∨ p = (k, v) := by
  induction d with
  | nil =>
    rw [aSet_nil] at h
    right
    simpa using h
  | cons q d ih =>
    obtain ⟨k', v'⟩ := q
    rw [aSet_cons] at h
    by_cases hk : k' = k
    · rw [if_pos hk] at h
      rcases List.mem_cons.mp h with he | ht
      · right
        rw [he, hk]
      · left
        exact List.mem_cons_of_mem _ ht
    · rw [if_neg hk] at h
      rcases List.mem_cons.mp h with he | ht
      · left
        rw [he]
        exact List.mem_cons_self _ _
      · rcases ih ht with hd | he
        · exact Or.inl (List.mem_cons_of_mem _ hd)
        · exact Or.inr he

theorem foldl_aSet_snd {K V : Type} [DecidableEq K] (w : V) (cs : List K) :
    ∀ d0 : List (K × V), (∀ p ∈ d0, p.2 = w) →
      ∀ p ∈ cs.foldl (fun d c => aSet d c w) d0, p.2 = w := by
  induction cs with
  | nil => intro d0 h p hp; exact h p hp
  | cons c cs ih =>
    intro d0 h p hp
    refine ih (aSet d0 c w) ?_ p hp
    intro q hq
    rcases mem_aSet d0 c w q hq with hd | he
    · exact h q hd
    · rw [he]

theorem deleteLoop_empty (td : List (String × List PyVal)) :
    ∀ D : DictMap, (∀ p ∈ td, p.2 = []) → deleteLoop D td = (D, none) := by
  induction td with
  | nil => intro D _; rfl
  | cons p td ih =>
    intro D h
    obtain ⟨c, ks⟩ := p
    have hk : ks = [] := h (c, ks) (List.mem_cons_self _ _)
    subst hk
    rw [deleteLoop]
    exact ih D (fun q hq => h q (List.mem_cons_of_mem _ hq))

theorem foldl_aSet_fresh {K V : Type} [DecidableEq K] (ps : List (K × V)) :
    ∀ d0 : List (K × V), NoDupKeys ps → (∀ p ∈ ps, aContains d0 p.1 = false) →
      ps.foldl (fun d p => aSet d p.1 p.2) d0 = d0 ++ ps := by
  induction ps with
  | nil => intro d0 _ _; simp
  | cons p ps ih =>
    intro d0 hnd hfr
    rw [NoDupKeys, aKeys, List.map_cons, List.nodup_cons] at hnd
    rw [List.foldl_cons, aSet_of_not_contains d0 p.1 p.2 (hfr p (List.mem_cons_self _ _))]
    have : (p.1, p.2) = p := rfl
    rw [this, ih (d0 ++ [p]) hnd.2 ?_]
    · rw [List.append_assoc]
      rfl
    · intro q hq
      rw [aContains_append, Bool.or_eq_false_iff]
      refine ⟨hfr q (List.mem_cons_of_mem _ hq), ?_⟩
      have hne : p.1 ≠ q.1 := by
        intro e
        exact hnd.1 (by rw [e]; exact List.mem_map.mpr ⟨q, hq, rfl⟩)
      simp [aContains, aLookup, hne]

theorem zipToDict_eq_zip (cols : List String) (vals : List PyVal) (hnd : cols.Nodup)
    (hlen : vals.length = cols.length) :
    zipToDict cols vals = List.zip cols vals := by
  rw [zipToDict]
  have hk : (List.zip cols vals).map Prod.fst = cols :=
    List.map_fst_zip cols vals (by rw [hlen])
  have hz : NoDupKeys (List.zip cols vals) := by
    rw [NoDupKeys, aKeys, hk]
    exact hnd
  rw [foldl_aSet_fresh (List.zip cols vals) [] hz (fun p _ => rfl)]
  rfl

theorem zipToDict_toList (cols : List String) (vals : List PyVal) (hnd : cols.Nodup)
    (hlen : vals.length = cols.length) :
    cols.map (fun c => (aLookup (zipToDict cols vals) c).getD PyVal.pynone) = vals := by
  rw [zipToDict_eq_zip cols vals hnd hlen]
  induction cols generalizing vals with
  | nil =>
    cases vals with
    | nil => rfl
    | cons v vs => cases hlen
  | cons c cs ih =>
    cases vals with
    | nil => cases hlen
    | cons v vs =>
      rw [List.nodup_cons] at hnd
      rw [List.zip_cons_cons, List.map_cons]
      rw [aLookup_cons, if_pos rfl]
      have htail : ∀ c' ∈ cs,
          (aLookup ((c, v) :: List.zip cs vs) c').getD PyVal.pynone =
          (aLookup (List.zip cs vs) c').getD PyVal.pynone := by
        intro c' hc'
        have hne : c ≠ c' := fun e => hnd.1 (e ▸ hc')
        rw [aLookup_cons, if_neg hne]
      rw [List.map_congr_left htail]
      rw [ih vs hnd.2 (by simpa using hlen)]
      rfl

theorem formatRow_ok_length (cols : List String) (kc : Nat) (r : InputRow)
    (v : List PyVal) (h : formatRow cols kc r = .ok v) : v.length = cols.length := by
  cases r with
  | rlist xs =>
    rw [formatRow] at h
    split at h
    · cases h
      rename_i har
      simp [List.length_append, List.length_replicate]
      omega
    · cases h
  | rtuple xs =>
    rw [formatRow] at h
    split at h <;> cases h
  | rdict es =>
    rw [formatRow] at h
    split at h
    · dsimp only at h
      split at h
      · cases h
      · cases h
        simp
    · cases h
  | rother => cases h

theorem formatDictRow_ok_length (cols : List String) (kc : Nat) (pk : PyVal)
    (r : InputRow) (v : List PyVal) (h : formatDictRow cols kc pk r = .ok v) :
    v.length = cols.length := by
  cases r with
  | rlist xs =>
    rw [formatDictRow] at h
    split at h
    · cases h
      rename_i har
      simp [List.length_append, List.length_replicate]
      omega
    · cases h
  | rtuple xs =>
    rw [formatDictRow] at h
    split at h <;> cases h
  | rdict es => cases h
  | rother => cases h

theorem formatRows_ok_lengths (cols : List String) (kc : Nat) (rs : List InputRow) :
    ∀ vs, formatRows cols kc rs = .ok vs → ∀ v ∈ vs, v.length = cols.length := by
  induction rs with
  | nil =>
    intro vs h v hv
    cases h
    cases hv
  | cons r rs ih =>
    intro vs h v hv
    rw [formatRows] at h
    cases h1 : formatRow cols kc r with
    | error e => rw [h1] at h; cases h
    | ok v1 =>
      rw [h1] at h
      cases h2 : formatRows cols kc rs with
      | error e => rw [h2] at h; cases h
      | ok vs2 =>
        rw [h2] at h
        cases h
        rcases List.mem_cons.mp hv with he | ht
        · rw [he]
          exact formatRow_ok_length cols kc r v1 h1
        · exact ih vs2 h2 v ht

theorem formatDictRows_ok_lengths (cols : List String) (kc : Nat)
    (es : List (PyVal × InputRow)) :
    ∀ vs, formatDictRows cols kc es = .ok vs → ∀ v ∈ vs, v.length = cols.length := by
  induction es with
  | nil =>
    intro vs h v hv
    cases h
    cases hv
  | cons pr es ih =>
    intro vs h v hv
    obtain ⟨pk, r⟩ := pr
    rw [formatDictRows] at h
    cases h1 : formatDictRow cols kc pk r with
    | error e => rw [h1] at h; cases h
    | ok v1 =>
      rw [h1] at h
      cases h2 : formatDictRows cols kc es with
      | error e => rw [h2] at h; cases h
      | ok vs2 =>
        rw [h2] at h
        cases h
        rcases List.mem_cons.mp hv with he | ht
        · rw [he]
          exact formatDictRow_ok_length cols kc pk r v1 h1
        · exact ih vs2 h2 v ht

theorem formatData_ok_lengths (cols : List String) (kc : Nat) (d : InputData)
    (vs : List (List PyVal)) (h : formatData cols kc d = .ok vs) :
    ∀ v ∈ vs, v.length = cols.length := by
  cases d with
  | dlist rows => exact formatRows_ok_lengths cols kc rows vs h
  | ddict es => exact formatDictRows_ok_lengths cols kc es vs h
  | dother => cases h

theorem formatRows_relist (cols : List String) (kc : Nat) (hkc : kc ≤ cols.length)
    (vs : List (List PyVal)) (hlen : ∀ v ∈ vs, v.length = cols.length) :
    formatRows cols kc (vs.map .rlist) = .ok vs := by
  induction vs with
  | nil => rfl
  | cons v vs ih =>
    rw [List.map_cons, formatRows]
    have hv := hlen v (List.mem_cons_self _ _)
    have hrow : formatRow cols kc (.rlist v) = .ok v := by
      rw [formatRow, if_pos ⟨by omega, by omega⟩, hv, Nat.sub_self]
      simp
    rw [hrow, ih (fun w hw => hlen w (List.mem_cons_of_mem _ hw))]

theorem formatRows_nonempty (cols : List String) (kc : Nat) (rs : List InputRow)
    (vs : List (List PyVal)) (h : formatRows cols kc rs = .ok vs) (hne : rs ≠ []) :
    vs ≠ [] := by
  cases rs with
  | nil => exact absurd rfl hne
  | cons r rs' =>
    rw [formatRows] at h
    cases h1 : formatRow cols kc r with
    | error e => rw [h1] at h; cases h
    | ok v1 =>
      rw [h1] at h
      cases h2 : formatRows cols kc rs' with
      | error e => rw [h2] at h; cases h
      | ok vs2 =>
        rw [h2] at h
        cases h
        simp

theorem formatDictRows_nonempty (cols : List String) (kc : Nat)
    (es : List (PyVal × InputRow)) (vs : List (List PyVal))
    (h : formatDictRows cols kc es = .ok vs) (hne : es ≠ []) : vs ≠ [] := by
  cases es with
  | nil => exact absurd rfl hne
  | cons pr es' =>
    obtain ⟨pk, r⟩ := pr
    rw [formatDictRows] at h
    cases h1 : formatDictRow cols kc pk r with
    | error e => rw [h1] at h; cases h
    | ok v1 =>
      rw [h1] at h
      cases h2 : formatDictRows cols kc es' with
      | error e => rw [h2] at h; cases h
      | ok vs2 =>
        rw [h2] at h
        cases h
        simp

theorem aLookup_append_right {K V : Type} [DecidableEq K] (s e : List (K × V)) (k : K)
    (h : aContains s k = false) : aLookup (s ++ e) k = aLookup e k := by
  induction s with
  | nil => rfl
  | cons p s ih =>
    obtain ⟨k', v'⟩ := p
    rw [aContains, aLookup_cons] at h
    by_cases hk : k' = k
    · rw [if_pos hk] at h
      simp at h
    · rw [if_neg hk] at h
      rw [List.cons_append, aLookup_cons, if_neg hk]
      exact ih h

theorem aLookup_append_ne {K V : Type} [DecidableEq K] (s e : List (K × V)) (k : K)
    (hne : aContains e k = false) : aLookup (s ++ e) k = aLookup s k := by
  induction s with
  | nil =>
    rw [List.nil_append, aLookup_nil]
    rw [aContains] at hne
    cases hl : aLookup e k with
    | none => rfl
    | some v => rw [hl] at hne; simp at hne
  | cons p s ih =>
    obtain ⟨k', v'⟩ := p
    rw [List.cons_append, aLookup_cons, aLookup_cons]
    by_cases hk : k' = k
    · rw [if_pos hk, if_pos hk]
    · rw [if_neg hk, if_neg hk]
      exact ih

theorem rowAdds_mem_fst (D : DictMap) (rid : Nat) (es : List (String × PyVal))
    (p : String × PyVal × Nat) (h : p ∈ rowAdds D rid es) : p.1 ∈ es.map Prod.fst := by
  rw [rowAdds, List.mem_filterMap] at h
  obtain ⟨q, hq, hqe⟩ := h
  by_cases hc : aContains D q.1 = true
  · rw [if_pos hc] at hqe
    cases hqe
    exact List.mem_map.mpr ⟨q, hq, rfl⟩
  · rw [if_neg hc] at hqe
    cases hqe

theorem addsFor_nil (L : List (String × PyVal × Nat)) (c : String)
    (h : ∀ p ∈ L, p.1 ≠ c) : addsFor L c = [] := by
  induction L with
  | nil => rfl
  | cons p L ih =>
    rw [addsFor, List.filterMap_cons, if_neg (h p (List.mem_cons_self _ _))]
    exact ih (fun q hq => h q (List.mem_cons_of_mem _ hq))

theorem rowToList_congr (m1 m : MDM) (rid : Nat) (hc : m1.columns = m.columns)
    (hf : rowFields m1 rid = rowFields m rid) : rowToList m1 rid = rowToList m rid := by
  rw [rowToList, rowToList, hc]
  refine List.map_congr_left ?_
  intro c _
  rw [rowGetField, rowGetField, hf]

theorem addsFor_cons_self (c : String) (k : PyVal) (r : Nat)
    (L : List (String × PyVal × Nat)) :
    addsFor ((c, k, r) :: L) c = (k, r) :: addsFor L c := by
  simp [addsFor]

theorem cleanStep_values (m : MDM) (r : List PyVal) (c0 : String) (cs : List String)
    (hcols : m.columns = c0 :: cs) (hnAll : m.columns.Nodup)
    (hc0 : aContains m.dicts c0 = true) (hsi : StoreInv m)
    (hlen : r.length = m.columns.length)
    (hany : (dupsOf m.dicts (zipToDict m.columns r)).any (fun p => p.2) = false)
    (hpnd : NoDupKeys (primaryDict m)) :
    valuesOf (cleanNext m r) = valuesOf m ++ [r] ∧
    StoreInv (cleanNext m r) ∧
    aContains (cleanNext m r).dicts c0 = true ∧
    NoDupKeys (primaryDict (cleanNext m r)) := by
  cases r with
  | nil =>
    rw [hcols] at hlen
    cases hlen
  | cons r0 rr =>
  have hlen' : rr.length = cs.length := by
    rw [hcols] at hlen
    simpa using hlen
  have hzip : zipToDict m.columns (r0 :: rr) = (c0, r0) :: List.zip cs rr := by
    rw [zipToDict_eq_zip m.columns (r0 :: rr) hnAll hlen, hcols, List.zip_cons_cons]
  have hc0cs : c0 ∉ cs := by
    rw [hcols, List.nodup_cons] at hnAll
    exact hnAll.1
  have hR : rowAdds m.dicts m.nextId (zipToDict m.columns (r0 :: rr)) =
      (c0, r0, m.nextId) :: rowAdds m.dicts m.nextId (List.zip cs rr) := by
    rw [hzip, rowAdds, List.filterMap_cons]
    rw [if_pos hc0]
    rfl
  have htailf : ∀ p ∈ rowAdds m.dicts m.nextId (List.zip cs rr), p.1 ≠ c0 := by
    intro p hp heq
    have hm := rowAdds_mem_fst m.dicts m.nextId (List.zip cs rr) p hp
    rw [List.map_fst_zip cs rr (by omega), heq] at hm
    exact hc0cs hm
  obtain ⟨d0, hd0⟩ := Option.isSome_iff_exists.mp ((aContains_iff m.dicts c0).mp hc0)
  have hfreshR := rowAdds_fresh m.dicts m.nextId (zipToDict m.columns (r0 :: rr)) hany
  have hndR := rowAdds_pairs_nodup m.dicts m.nextId _ (zipToDict_nodup m.columns (r0 :: rr))
  have haddsFor : addsFor (rowAdds m.dicts m.nextId (zipToDict m.columns (r0 :: rr))) c0 =
      [(r0, m.nextId)] := by
    rw [hR, addsFor_cons_self, addsFor_nil _ c0 htailf]
  have hlk1 : aLookup
      (applyAdds m.dicts (rowAdds m.dicts m.nextId (zipToDict m.columns (r0 :: rr)))) c0 =
      some (d0 ++ [(r0, m.nextId)]) := by
    rw [applyAdds_lookup _ m.dicts hfreshR hndR c0, hd0, haddsFor]
    rfl
  have hpm : primaryDict m = d0 := by
    rw [primaryDict, hcols]
    dsimp only [List.head?]
    rw [hd0]
    rfl
  have hhd : m.columns.head? = some c0 := by
    rw [hcols]
    rfl
  have hpm1 : primaryDict (cleanNext m (r0 :: rr)) =
      d0 ++ [(r0, m.nextId)] := by
    rw [primaryDict, cleanNext]
    dsimp only
    rw [hhd]
    dsimp only
    rw [hlk1]
    rfl
  have hnidfresh : aContains m.rowStore m.nextId = false := by
    cases hq : aContains m.rowStore m.nextId with
    | false => rfl
    | true =>
      rw [aContains] at hq
      obtain ⟨fs, hfs⟩ := Option.isSome_iff_exists.mp hq
      have := hsi.1 (m.nextId, fs) (aLookup_mem _ _ _ hfs)
      dsimp only at this
      omega
  have hstore : rowFields (cleanNext m (r0 :: rr))
      m.nextId = some (zipToDict m.columns (r0 :: rr)) := by
    rw [rowFields, cleanNext]
    dsimp only
    rw [aLookup_append_right _ _ _ hnidfresh]
    simp [aLookup]
  have hnew : rowToList (cleanNext m (r0 :: rr))
      m.nextId = r0 :: rr := by
    rw [rowToList]
    have hcc : (cleanNext m (r0 :: rr)).columns = m.columns := rfl
    rw [hcc]
    have hg : ∀ c, rowGetField (cleanNext m (r0 :: rr))
        m.nextId c = aLookup (zipToDict m.columns (r0 :: rr)) c := by
      intro c
      rw [rowGetField, hstore]
    simp only [hg]
    exact zipToDict_toList m.columns (r0 :: rr) hnAll hlen
  refine ⟨?_, ⟨?_, ?_⟩, ?_, ?_⟩
  · rw [valuesOf, valuesOf, hpm1, hpm, List.map_append]
    congr 1
    · refine List.map_congr_left ?_
      intro p hp
      have hlt : p.2 < m.nextId := hsi.2 p (by rw [hpm]; exact hp)
      refine rowToList_congr _ m p.2 rfl ?_
      rw [rowFields, rowFields]
      simp only [cleanNext]
      refine aLookup_append_ne _ _ _ ?_
      have hne : m.nextId ≠ p.2 := by omega
      simp [aContains, aLookup, hne]
    · simp only [List.map_cons, List.map_nil]
      rw [hnew]
  · intro q hq
    simp only [cleanNext] at hq ⊢
    rcases List.mem_append.mp hq with h1 | h2
    · have := hsi.1 q h1
      omega
    · rw [List.mem_singleton] at h2
      rw [h2]
      omega
  · intro p hp
    rw [hpm1] at hp
    simp only [cleanNext]
    rcases List.mem_append.mp hp with h1 | h2
    · have := hsi.2 p (by rw [hpm]; exact h1)
      omega
    · rw [List.mem_singleton] at h2
      rw [h2]
      omega
  · simp only [cleanNext]
    rw [aContains, hlk1]
    rfl
  · rw [hpm1, NoDupKeys, aKeys, List.map_append, List.nodup_append]
    rw [hpm] at hpnd
    have hr0 : aContains d0 r0 = false := by
      refine dupsOf_any_false m.dicts (zipToDict m.columns (r0 :: rr)) hany (c0, r0) ?_ d0 hd0
      rw [hzip]
      exact List.mem_cons_self _ _
    rw [aContains_false_iff] at hr0
    refine ⟨hpnd, List.nodup_singleton r0, ?_⟩
    intro q hq hb
    rw [List.map_cons, List.map_nil, List.mem_singleton] at hb
    rw [hb] at hq
    exact hr0 hq
theorem updateLoop_success_values (ow : String) (rows : List (List PyVal)) :
    ∀ (m : MDM) (acc : UpdAcc) (m' : MDM) (acc' : UpdAcc) (c0 : String) (cs : List String),
      m.columns = c0 :: cs →
      m.columns.Nodup →
      aContains m.dicts c0 = true →
      StoreInv m →
      (∀ v ∈ rows, v.length = m.columns.length) →
      NoDupKeys (primaryDict m) →
      updateLoop ow false m rows acc = (m', acc', none) →
      valuesOf m' = valuesOf m ++ rows ∧ acc'.toDelete = acc.toDelete ∧
        m'.columns = m.columns ∧ m'.keyColumns = m.keyColumns ∧
        NoDupKeys (primaryDict m') := by
  induction rows with
  | nil =>
    intro m acc m' acc' c0 cs hcols hnd hc0 hsi hlen hpnd h
    rw [updateLoop] at h
    cases h
    exact ⟨(List.append_nil _).symm, rfl, rfl, rfl, hpnd⟩
  | cons r rs ih =>
    intro m acc m' acc' c0 cs hcols hnd hc0 hsi hlen hpnd h
    rw [updateLoop] at h
    by_cases hany : (dupsOf m.dicts (zipToDict m.columns r)).any (fun p => p.2) = false
    · rw [addEntry_clean m r acc ow false hany] at h
      dsimp only at h
      have h' : updateLoop ow false (cleanNext m r) rs
          {acc with addedEntries := acc.addedEntries ++
            [addPairs (rowAdds m.dicts m.nextId (zipToDict m.columns r))]} =
          (m', acc', none) := h
      obtain ⟨hv, hsi', hc0', hpnd'⟩ := cleanStep_values m r c0 cs hcols hnd hc0 hsi
        (hlen r (List.mem_cons_self _ _)) hany hpnd
      obtain ⟨hv', ht', hcol', hkc', hpnd''⟩ := ih (cleanNext m r) _ m' acc' c0 cs hcols hnd
        hc0' hsi' (fun v hv2 => hlen v (List.mem_cons_of_mem _ hv2)) hpnd' h'
      refine ⟨?_, ht', hcol', hkc', hpnd''⟩
      rw [hv', hv, List.append_assoc, List.singleton_append]
    · have hany' : (dupsOf m.dicts (zipToDict m.columns r)).any (fun p => p.2) = true := by
        cases hq : (dupsOf m.dicts (zipToDict m.columns r)).any (fun p => p.2) with
        | false => exact absurd hq hany
        | true => rfl
      rcases addEntry_dup m r acc ow hany' with ⟨D', heq, _⟩ | ⟨m1, acc1, e, heq, _⟩
      · rw [heq] at h
        dsimp only at h
        simp at h
      · rw [heq] at h
        dsimp only at h
        simp at h
theorem NoDupKeys_nil {K V : Type} [DecidableEq K] : NoDupKeys ([] : List (K × V)) :=
  List.nodup_nil

theorem initDicts_values (dictCols : List String) :
    ∀ p ∈ initDicts dictCols, p.2 = ([] : PyDict) :=
  foldl_aSet_snd ([] : PyDict) dictCols [] (by intro p hp; cases hp)

theorem primaryDict_all_empty (m : MDM) (h : ∀ p ∈ m.dicts, p.2 = ([] : PyDict)) :
    primaryDict m = [] := by
  rw [primaryDict]
  cases hh : m.columns.head? with
  | none => rfl
  | some c0 =>
    dsimp only
    cases hl : aLookup m.dicts c0 with
    | none => rfl
    | some d =>
      rw [Option.getD_some]
      exact h (c0, d) (aLookup_mem _ _ _ hl)

theorem relistData_eq (m : MDM) :
    relistData m = .dlist ((valuesOf m).map InputRow.rlist) := by
  rw [relistData, valuesOf, List.map_map]
  rfl

theorem tableEq_refl (m : MDM) (hnd : NoDupKeys (primaryDict m)) : tableEq m m = true := by
  rw [tableEq, pyDictRowEq]
  simp only [beq_self_eq_true, Bool.true_and, Bool.and_true]
  rw [List.all_eq_true]
  intro p hp
  obtain ⟨k, rid⟩ := p
  rw [aLookup_of_mem_nodup (primaryDict m) k rid hnd hp]
  exact beq_self_eq_true _

theorem constructM_none_eq (c0 : String) (cs : List String) (d : Option InputData) :
    constructM (c0 :: cs) none d =
      if aContains (initDicts (c0 :: cs)) c0 then
        constructTail (c0 :: cs) (c0 :: cs).length (initDicts (c0 :: cs)) d
      else .error .keyError := rfl

theorem constructM_some_zero (c0 : String) (cs : List String) (d : Option InputData) :
    constructM (c0 :: cs) (some 0) d = .error .keyError := rfl

theorem constructM_some_eq (c0 : String) (cs : List String) (k : Nat) (d : Option InputData)
    (hk : k ≠ 0) :
    constructM (c0 :: cs) (some k) d =
      if aContains (initDicts ((c0 :: cs).take k)) c0 then
        constructTail (c0 :: cs) k (initDicts ((c0 :: cs).take k)) d
      else .error .keyError := by
  rw [constructM]
  simp only [List.head?_cons, if_neg hk]
  rfl
theorem updateM_roundtrip (c0 : String) (cs : List String) (base : MDM) (data : InputData)
    (m : MDM)
    (hcols : base.columns = c0 :: cs)
    (hnd : base.columns.Nodup)
    (hc : aContains base.dicts c0 = true)
    (hrs : base.rowStore = [])
    (hpd : primaryDict base = [])
    (hkcm : m.keyColumns ≤ base.columns.length)
    (hT : dataTruthy data = true)
    (hu : updateM base data "primary" false = (m, .ok ())) :
    updateM base (relistData m) "primary" false = (m, .ok ()) ∧
      dataTruthy (relistData m) = true ∧
      m.keyColumns = base.keyColumns ∧
      NoDupKeys (primaryDict m) := by
  rw [updateM] at hu
  cases hf : formatData base.columns base.keyColumns data with
  | error e => rw [hf] at hu; simp at hu
  | ok rows =>
    rw [hf] at hu
    dsimp only at hu
    rcases hl : updateLoop "primary" false {base with readOnly := false} rows
        (initUpdAcc base.columns base.keyColumns) with ⟨m2, acc, oe⟩
    rw [hl] at hu
    cases oe with
    | some e => dsimp only at hu; simp at hu
    | none =>
      dsimp only at hu
      have hpd1 : primaryDict {base with readOnly := false} = [] := hpd
      have hsi : StoreInv {base with readOnly := false} := by
        simp only [StoreInv]
        constructor
        · intro q hq
          have hq' : q ∈ base.rowStore := hq
          rw [hrs] at hq'
          cases hq'
        · intro p hp
          rw [hpd1] at hp
          cases hp
      have hnd0 : NoDupKeys (primaryDict {base with readOnly := false}) := by
        rw [hpd1]
        exact NoDupKeys_nil
      have hlens : ∀ v ∈ rows, v.length = base.columns.length :=
        formatData_ok_lengths base.columns base.keyColumns data rows hf
      obtain ⟨hv, ht, hcol2, hkc2, hnd2⟩ := updateLoop_success_values "primary" rows
        {base with readOnly := false} (initUpdAcc base.columns base.keyColumns) m2 acc c0 cs
        hcols hnd hc hsi hlens hnd0 hl
      have htd : ∀ p ∈ acc.toDelete, p.2 = ([] : List PyVal) := by
        rw [ht]
        simp only [initUpdAcc]
        exact foldl_aSet_snd ([] : List PyVal) _ [] (by intro p hp; cases hp)
      have hdel := deleteLoop_empty acc.toDelete m2.dicts htd
      rw [hdel] at hu
      dsimp only at hu
      rw [Prod.mk.injEq] at hu
      have hm : m = {m2 with dicts := m2.dicts, readOnly := true} := hu.1.symm
      have hmk : m.keyColumns = base.keyColumns := by rw [hm]; exact hkc2
      have hvalm : valuesOf m = rows := by
        have hmm2 : valuesOf m = valuesOf m2 := by
          rw [hm]
          rfl
        rw [hmm2, hv]
        have hm1 : valuesOf {base with readOnly := false} = [] := by
          rw [valuesOf, hpd1]
          rfl
        rw [hm1, List.nil_append]
      have hndm : NoDupKeys (primaryDict m) := by rw [hm]; exact hnd2
      have hrne : rows ≠ [] := by
        cases data with
        | dlist rs =>
          refine formatRows_nonempty base.columns base.keyColumns rs rows hf ?_
          simp only [dataTruthy] at hT
          intro he
          rw [he] at hT
          simp at hT
        | ddict es =>
          refine formatDictRows_nonempty base.columns base.keyColumns es rows hf ?_
          simp only [dataTruthy] at hT
          intro he
          rw [he] at hT
          simp at hT
        | dother => cases hf
      have hrel : relistData m = .dlist (rows.map .rlist) := by
        rw [relistData_eq, hvalm]
      have hTre : dataTruthy (relistData m) = true := by
        rw [hrel]
        cases rows with
        | nil => exact absurd rfl hrne
        | cons r rs' => rfl
      have hkc : base.keyColumns ≤ base.columns.length := hmk ▸ hkcm
      have hfre : formatData base.columns base.keyColumns (relistData m) = .ok rows := by
        rw [hrel]
        exact formatRows_relist base.columns base.keyColumns hkc rows hlens
      refine ⟨?_, hTre, hmk, hndm⟩
      rw [updateM, hfre]
      dsimp only
      rw [hl]
      dsimp only
      rw [hdel]
      dsimp only
      rw [Prod.mk.injEq]
      exact ⟨hm.symm, rfl⟩
theorem constructTail_roundtrip (c0 : String) (cs : List String)
    (kcEff : Nat) (D : DictMap) (data : InputData) (m : MDM)
    (hnd : (c0 :: cs).Nodup)
    (hDv : ∀ p ∈ D, p.2 = ([] : PyDict))
    (hc : aContains D c0 = true)
    (hkcm : m.keyColumns ≤ (c0 :: cs).length)
    (h : constructTail (c0 :: cs) kcEff D (some data) = .ok m) :
    constructTail (c0 :: cs) kcEff D (some (relistData m)) = .ok m ∧
      m.keyColumns = kcEff ∧ NoDupKeys (primaryDict m) := by
  have hpd : primaryDict (baseState (c0 :: cs) kcEff D) = [] :=
    primaryDict_all_empty _ hDv
  rw [constructTail] at h
  by_cases hT : dataTruthy data = true
  · rw [if_pos hT] at h
    rcases hu : updateM (baseState (c0 :: cs) kcEff D) data "primary" false with ⟨m1, r⟩
    rw [hu] at h
    cases r with
    | error e => dsimp only at h; cases h
    | ok u =>
      cases u
      dsimp only at h
      have hm1 : m1 = m := Except.ok.inj h
      rw [hm1] at hu
      obtain ⟨hure, hTre, hmk, hndm⟩ := updateM_roundtrip c0 cs (baseState (c0 :: cs) kcEff D)
        data m rfl hnd hc rfl hpd hkcm hT hu
      refine ⟨?_, hmk, hndm⟩
      rw [constructTail]
      rw [if_pos hTre, hure]
  · rw [if_neg hT] at h
    have hm : baseState (c0 :: cs) kcEff D = m := Except.ok.inj h
    have hpdm : primaryDict m = [] := by rw [← hm]; exact hpd
    have hrelm : relistData m = InputData.dlist [] := by
      rw [relistData, hpdm]
      rfl
    refine ⟨?_, ?_, ?_⟩
    · rw [hrelm]
      exact congrArg Except.ok hm
    · rw [← hm]
      rfl
    · rw [hpdm]
      exact NoDupKeys_nil
/-- C8: round trip.  For a table constructed successfully from data (with a
duplicate-free column schema and a key-column count that fits the schema),
collecting every row as its ordered value list (`to_list`, in primary-index
iteration order) and constructing a new table from that output with the same
columns and key-column count succeeds and yields a table equal, by
`MultiDirMap.__eq__`, to the original. -/
theorem C8_construct_roundtrip (cols : List String) (kc0 : Option Nat) (data : InputData)
    (m : MDM) (hnd : cols.Nodup) (hkc : m.keyColumns ≤ cols.length)
    (h : constructM cols kc0 (some data) = Except.ok m) :
    ∃ m2, constructM cols (some m.keyColumns) (some (relistData m)) = Except.ok m2 ∧
      tableEq m2 m = true := by
  cases cols with
  | nil => simp [constructM] at h
  | cons c0 cs =>
    cases kc0 with
    | none =>
      rw [constructM_none_eq] at h
      by_cases hc : aContains (initDicts (c0 :: cs)) c0 = true
      · rw [if_pos hc] at h
        obtain ⟨hre, hmk, hndp⟩ := constructTail_roundtrip c0 cs (c0 :: cs).length
          (initDicts (c0 :: cs)) data m hnd (initDicts_values _) hc hkc h
        refine ⟨m, ?_, tableEq_refl m hndp⟩
        rw [hmk]
        have hne : (c0 :: cs).length ≠ 0 := by simp
        rw [constructM_some_eq c0 cs _ _ hne, List.take_length, if_pos hc]
        exact hre
      · rw [if_neg hc] at h
        simp at h
    | some k =>
      by_cases hk0 : k = 0
      · subst hk0
        rw [constructM_some_zero] at h
        simp at h
      · rw [constructM_some_eq c0 cs k _ hk0] at h
        by_cases hc : aContains (initDicts ((c0 :: cs).take k)) c0 = true
        · rw [if_pos hc] at h
          obtain ⟨hre, hmk, hndp⟩ := constructTail_roundtrip c0 cs k
            (initDicts ((c0 :: cs).take k)) data m hnd (initDicts_values _) hc hkc h
          refine ⟨m, ?_, tableEq_refl m hndp⟩
          rw [hmk, constructM_some_eq c0 cs k _ hk0, if_pos hc]
          exact hre
        · rw [if_neg hc] at h
          simp at h

theorem C8_witness :
    ∃ m2, constructM ["a", "b"] (some mXY.keyColumns) (some (relistData mXY)) =
        Except.ok m2 ∧ tableEq m2 mXY = true :=
  C8_construct_roundtrip ["a", "b"] (some 2)
    (.dlist [.rlist [.str "x", .str "y"]]) mXY (by decide) (by decide) (by decide)
